import Mathlib

/-!
# Singly linked list operations of `DS_in_C`

A shallow embedding of `delete_at_tail.c`, `insert_at_list.c` and
`creating_and_printing_list.c`.

* A pointer is a natural number, `NULL` is `0`.
* The memory is a map from addresses to live nodes; an address that holds no
  live node (never allocated, or released by `free`) maps to `none`.
* A C function becomes a function from the memory (and its arguments) to either
  an error or its return value together with the memory it leaves behind.
  `Err.invalidAccess` is a read or write through `NULL` or through an address
  holding no live node, `Err.outOfFuel` is a `while` loop that used up the
  iteration budget given to it.
* `calloc` takes the address the allocator picks as an argument, `NULL`
  standing for a failed allocation.
-/

namespace DSinC

/-- A pointer to a node; `0` is the null pointer. -/
abbrev Ptr := Nat

/-- The null pointer. -/
abbrev NULL : Ptr := 0

/-- The type `struct node`: an `int` payload and the pointer to the successor. -/
structure Node where
  value : Int
  next : Ptr
deriving DecidableEq, Repr

/-- The memory: the live node stored at each address, if any. -/
abbrev Heap := Ptr → Option Node

/-- The outcomes of a run that does not return normally. -/
inductive Err where
  | invalidAccess
  | outOfFuel
deriving DecidableEq, Repr

/-- The memory in which no node is live. -/
def emptyHeap : Heap := fun _ => none

/-- Overwrite the cell at address `p`. -/
def Heap.set (h : Heap) (p : Ptr) (c : Option Node) : Heap :=
  fun q => if q = p then c else h q

/-- Read `*p`. -/
def load (h : Heap) (p : Ptr) : Except Err Node :=
  if p = NULL then .error .invalidAccess
  else match h p with
    | some nd => .ok nd
    | none => .error .invalidAccess

/-- The assignment `p->value = v`. -/
def store_value (h : Heap) (p : Ptr) (v : Int) : Except Err Heap :=
  match load h p with
  | .error e => .error e
  | .ok nd => .ok (h.set p (some ⟨v, nd.next⟩))

/-- The assignment `p->next = q`. -/
def store_next (h : Heap) (p : Ptr) (q : Ptr) : Except Err Heap :=
  match load h p with
  | .error e => .error e
  | .ok nd => .ok (h.set p (some ⟨nd.value, q⟩))

/-- The call `free(p)` on a node pointer. -/
def free (h : Heap) (p : Ptr) : Except Err Heap :=
  if p = NULL then .ok h
  else match h p with
    | some _ => .ok (h.set p none)
    | none => .error .invalidAccess

/-- The call `calloc(1, sizeof(Node))`: `p` is the address the allocator picks,
`NULL` when it fails; the new node is zero-filled. -/
def calloc (h : Heap) (p : Ptr) : Ptr × Heap :=
  if p = NULL then (NULL, h) else (p, h.set p (some ⟨0, NULL⟩))

/-- Two's-complement wrap of an integer into the range of a 32-bit `int`. -/
def wrap32 (x : Int) : Int := (x + 2147483648) % 4294967296 - 2147483648

/-- The line written by `printf("Node %d: %d\n", i, value)`. -/
def printf_node (i : Int) (value : Int) : String :=
  "Node " ++ toString i ++ ": " ++ toString value ++ "\n"

/-! ## `delete_at_tail.c` -/

/-- The loop `while (current->next != NULL) { prev = current; current = current->next; }`
of `delete_at_tail`; returns the final `(current, prev)`. -/
def delete_at_tail_loop : Nat → Heap → Ptr → Ptr → Except Err (Ptr × Ptr)
  | 0, _, _, _ => .error .outOfFuel
  | fuel + 1, h, current, prev =>
    match load h current with
    | .error e => .error e
    | .ok nd =>
      if nd.next ≠ NULL then delete_at_tail_loop fuel h nd.next current
      else .ok (current, prev)

/-- The function `Node *delete_at_tail(Node *head)`. -/
def delete_at_tail (fuel : Nat) (h : Heap) (head : Ptr) : Except Err (Ptr × Heap) :=
  if head = NULL then .ok (NULL, h)
  else
    match load h head with
    | .error e => .error e
    | .ok hd =>
      if hd.next = NULL then
        match free h head with
        | .error e => .error e
        | .ok h1 => .ok (NULL, h1)
      else
        match delete_at_tail_loop fuel h head NULL with
        | .error e => .error e
        | .ok (current, prev) =>
          match store_next h prev NULL with
          | .error e => .error e
          | .ok h1 =>
            match free h1 current with
            | .error e => .error e
            | .ok h2 => .ok (head, h2)

/-- The function `Node *delete_at_head(Node *head)`. -/
def delete_at_head (h : Heap) (head : Ptr) : Except Err (Ptr × Heap) :=
  if head = NULL then .ok (NULL, h)
  else
    match load h head with
    | .error e => .error e
    | .ok hd =>
      let to_return := hd.next
      match free h head with
      | .error e => .error e
      | .ok h1 => .ok (to_return, h1)

/-- The loop `while (current->next != NULL) current = current->next;` of
`insert_at_tail`; returns the final `current`. -/
def insert_at_tail_loop : Nat → Heap → Ptr → Except Err Ptr
  | 0, _, _ => .error .outOfFuel
  | fuel + 1, h, current =>
    match load h current with
    | .error e => .error e
    | .ok nd =>
      if nd.next ≠ NULL then insert_at_tail_loop fuel h nd.next
      else .ok current

/-- The function `Node *insert_at_tail(Node *head, int new_value)`; `p` is the address
`calloc` picks. -/
def insert_at_tail (fuel : Nat) (h : Heap) (p : Ptr) (head : Ptr) (new_value : Int) :
    Except Err (Ptr × Heap) :=
  let (new_node, h0) := calloc h p
  match store_value h0 new_node new_value with
  | .error e => .error e
  | .ok h1 =>
    if head = NULL then .ok (new_node, h1)
    else
      match insert_at_tail_loop fuel h1 head with
      | .error e => .error e
      | .ok current =>
        match store_next h1 current new_node with
        | .error e => .error e
        | .ok h2 => .ok (head, h2)

/-- The function `Node *insert_at_head(Node *head, int new_value)`; `p` is the address
`calloc` picks. -/
def insert_at_head (h : Heap) (p : Ptr) (head : Ptr) (new_value : Int) :
    Except Err (Ptr × Heap) :=
  let (new_node, h0) := calloc h p
  match store_value h0 new_node new_value with
  | .error e => .error e
  | .ok h1 =>
    if head = NULL then .ok (new_node, h1)
    else
      match store_next h1 new_node head with
      | .error e => .error e
      | .ok h2 => .ok (new_node, h2)

/-- The loop of `print_list`: `i` is the `int` counter, `out` the lines written
so far. -/
def print_list_loop : Nat → Heap → Ptr → Int → List String → Except Err (List String)
  | 0, _, _, _, _ => .error .outOfFuel
  | fuel + 1, h, current, i, out =>
    if current ≠ NULL then
      match load h current with
      | .error e => .error e
      | .ok nd => print_list_loop fuel h nd.next (wrap32 (i + 1)) (out ++ [printf_node i nd.value])
    else .ok out

/-- The function `void print_list(Node *head)`; the result is the text written to the
standard output, line by line. -/
def print_list (fuel : Nat) (h : Heap) (head : Ptr) : Except Err (List String) :=
  print_list_loop fuel h head 0 []

/-! ## The chain reachable from a head pointer -/

/-- Address of the first cell of a sequence of `(address, value)` cells, `NULL`
for the empty sequence. -/
def headAddr : List (Ptr × Int) → Ptr
  | [] => NULL
  | c :: _ => c.1

/-- The cells are laid out in memory as a chain: every cell is a live node at a
non-null address, holding its value, whose `next` is the address of the cell
after it, and `NULL` for the last cell. -/
def Chain (h : Heap) : List (Ptr × Int) → Prop
  | [] => True
  | c :: rest => c.1 ≠ NULL ∧ h c.1 = some ⟨c.2, headAddr rest⟩ ∧ Chain h rest

/-- The pointer `head` is a well-formed list whose nodes, from head to tail, are
`cells`; `head = NULL` is the empty list. -/
def IsList (h : Heap) (head : Ptr) (cells : List (Ptr × Int)) : Prop :=
  head = headAddr cells ∧ Chain h cells

/-- The addresses of the nodes of a chain, head first. -/
def addrs (cells : List (Ptr × Int)) : List Ptr := cells.map Prod.fst

/-- The head-to-tail value sequence of a chain. -/
def values (cells : List (Ptr × Int)) : List Int := cells.map Prod.snd

/-- No node occurs twice along the chain. -/
def Acyclic (cells : List (Ptr × Int)) : Prop := (addrs cells).Nodup

/-- No node is the target of the `next` slot of two different nodes of the chain. -/
def NoSharing (h : Heap) (cells : List (Ptr × Int)) : Prop :=
  ∀ a ∈ addrs cells, ∀ b ∈ addrs cells, ∀ na nb : Node,
    h a = some na → h b = some nb → na.next ≠ NULL → na.next = nb.next → a = b

/-- The three invariants of the data model for the chain reachable from `head`:
following `next` from `head` reaches a node with empty `next` after finitely many
steps, no node is met twice, and no node is referenced by two `next` slots. -/
def WellFormed (h : Heap) (head : Ptr) : Prop :=
  ∃ cells, IsList h head cells ∧ Acyclic cells ∧ NoSharing h cells

instance decidableChain (h : Heap) : (cells : List (Ptr × Int)) → Decidable (Chain h cells)
  | [] => isTrue trivial
  | c :: rest =>
    have := decidableChain h rest
    inferInstanceAs (Decidable (c.1 ≠ NULL ∧ h c.1 = some ⟨c.2, headAddr rest⟩ ∧ Chain h rest))

instance decidableIsList (h : Heap) (head : Ptr) (cells : List (Ptr × Int)) :
    Decidable (IsList h head cells) :=
  inferInstanceAs (Decidable (head = headAddr cells ∧ Chain h cells))

/-- The driver pattern `head = insert_at_head(head, v)` repeated for a sequence
of values, each paired with the address `calloc` picks for it. -/
def insert_all_at_head (h : Heap) (head : Ptr) : List (Ptr × Int) → Except Err (Ptr × Heap)
  | [] => .ok (head, h)
  | c :: rest =>
    match insert_at_head h c.1 head c.2 with
    | .error e => .error e
    | .ok r => insert_all_at_head r.2 r.1 rest

/-- The driver pattern `head = insert_at_tail(head, v)` repeated for a sequence
of values, each paired with the address `calloc` picks for it. -/
def insert_all_at_tail (fuel : Nat) (h : Heap) (head : Ptr) :
    List (Ptr × Int) → Except Err (Ptr × Heap)
  | [] => .ok (head, h)
  | c :: rest =>
    match insert_at_tail fuel h c.1 head c.2 with
    | .error e => .error e
    | .ok r => insert_all_at_tail fuel r.2 r.1 rest

/-- The lines `Node i: x` for the cells of a chain, the counter starting at `i`
and stepping as the `int` counter of `print_list` does. -/
def node_lines (i : Int) : List (Ptr × Int) → List String
  | [] => []
  | c :: rest => printf_node i c.2 :: node_lines (wrap32 (i + 1)) rest

/-- The memory built by `main` of `creating_and_printing_list.c`: the nodes
`a`, `b`, `c` with values 5, 6, 7, placed at the addresses 1, 2, 3. -/
def abc_heap : Heap :=
  ((emptyHeap.set 1 (some ⟨5, 2⟩)).set 2 (some ⟨6, 3⟩)).set 3 (some ⟨7, NULL⟩)

/-- The cells of the chain `a`, `b`, `c` in `abc_heap`. -/
def abc_cells : List (Ptr × Int) := [(1, 5), (2, 6), (3, 7)]

/-- The pattern `head = delete_at_head(head); head = delete_at_tail(head);` of
`main` in `delete_at_tail.c`. -/
def delete_head_then_tail (fuel : Nat) (h : Heap) (head : Ptr) : Except Err (Ptr × Heap) :=
  match delete_at_head h head with
  | .error e => .error e
  | .ok r => delete_at_tail fuel r.2 r.1

/-- The two deletions in the other order:
`head = delete_at_tail(head); head = delete_at_head(head);`. -/
def delete_tail_then_head (fuel : Nat) (h : Heap) (head : Ptr) : Except Err (Ptr × Heap) :=
  match delete_at_tail fuel h head with
  | .error e => .error e
  | .ok r => delete_at_head r.2 r.1

/-- The function `main` of `insert_at_list.c`; `p1`, ..., `p6` are the addresses
picked by the six calls of `calloc`, the result is the text written. -/
def insert_at_list_main (fuel : Nat) (h : Heap) (p1 p2 p3 p4 p5 p6 : Ptr) :
    Except Err (List String) :=
  match insert_all_at_head h NULL [(p1, 7), (p2, 5), (p3, 3)] with
  | .error e => .error e
  | .ok r =>
    match insert_all_at_tail fuel r.2 r.1 [(p4, 10), (p5, 12), (p6, 14)] with
    | .error e => .error e
    | .ok r2 => print_list fuel r2.2 r2.1

/-- The function `main` of `delete_at_tail.c`; `p1`, `p2`, `p3` are the addresses
picked by the three calls of `calloc`, the result is the text written. -/
def delete_at_tail_main (fuel : Nat) (h : Heap) (p1 p2 p3 : Ptr) : Except Err (List String) :=
  match insert_all_at_head h NULL [(p1, 7), (p2, 5), (p3, 3)] with
  | .error e => .error e
  | .ok r0 =>
    match print_list fuel r0.2 r0.1 with
    | .error e => .error e
    | .ok out0 =>
      match delete_at_head r0.2 r0.1 with
      | .error e => .error e
      | .ok r1 =>
        match print_list fuel r1.2 r1.1 with
        | .error e => .error e
        | .ok out1 =>
          match delete_at_tail fuel r1.2 r1.1 with
          | .error e => .error e
          | .ok r2 =>
            match print_list fuel r2.2 r2.1 with
            | .error e => .error e
            | .ok out2 =>
              .ok (["Before Delete:\n"] ++ out0 ++ ["\nAfter Deleting head:\n"] ++ out1 ++
                ["\nAfter Deleting tail:\n"] ++ out2)

/-- The function `main` of `creating_and_printing_list.c`: the chain `a`, `b`,
`c` is printed from `&a`. -/
def creating_and_printing_list_main (fuel : Nat) : Except Err (List String) :=
  print_list fuel abc_heap 1

/-- A memory holding `n` nodes of value 0 at the addresses `1, ..., n`, each
pointing to the next address and the last one to `NULL`. -/
def seq_heap (n : Nat) : Heap :=
  fun p => if 1 ≤ p ∧ p ≤ n then some ⟨0, if p = n then NULL else p + 1⟩ else none

/-- The cells of `k` nodes of value 0 at consecutive addresses from `a` on. -/
def seq_cells : Nat → Ptr → List (Ptr × Int)
  | 0, _ => []
  | k + 1, a => (a, 0) :: seq_cells k (a + 1)

/-- The loop of `print_list` as a transformer of the memory: the memory is
handed from each iteration to the next, the loop body reads `current->value` and
`current->next` and writes a line, and the memory the loop ends with is returned
together with the lines written. -/
def print_list_loop_mem : Nat → Heap → Ptr → Int → List String →
    Except Err (Heap × List String)
  | 0, _, _, _, _ => .error .outOfFuel
  | fuel + 1, h, current, i, out =>
    if current ≠ NULL then
      match load h current with
      | .error e => .error e
      | .ok nd =>
        print_list_loop_mem fuel h nd.next (wrap32 (i + 1)) (out ++ [printf_node i nd.value])
    else .ok (h, out)

/-- The function `void print_list(Node *head)` as a transformer of the memory:
the result is the memory the call leaves behind and the text it wrote. The
pointer `head` is passed by value and nothing is returned, so the head the
caller holds after the call is the one it passed. -/
def print_list_mem (fuel : Nat) (h : Heap) (head : Ptr) : Except Err (Heap × List String) :=
  print_list_loop_mem fuel h head 0 []

/-- Two calls `print_list(head); print_list(head);` in a row, the second running
on the memory the first leaves behind; the result is the final memory and the
text of each call. -/
def print_list_twice (f1 f2 : Nat) (h : Heap) (head : Ptr) :
    Except Err (Heap × List String × List String) :=
  match print_list_mem f1 h head with
  | .error e => .error e
  | .ok r1 =>
    match print_list_mem f2 r1.1 head with
    | .error e => .error e
    | .ok r2 => .ok (r2.1, r1.2, r2.2)

/-! ## Memory lemmas -/

theorem Heap.set_same (h : Heap) (p : Ptr) (c : Option Node) : h.set p c p = c := by
  simp [Heap.set]

theorem Heap.set_other (h : Heap) (p q : Ptr) (c : Option Node) (hq : q ≠ p) :
    h.set p c q = h q := by
  simp [Heap.set, hq]

theorem load_of_live {h : Heap} {p : Ptr} {nd : Node} (hp : p ≠ NULL) (hl : h p = some nd) :
    load h p = .ok nd := by
  simp [load, hp, hl]

theorem headAddr_eq_null_iff {h : Heap} {cells : List (Ptr × Int)} (hc : Chain h cells) :
    headAddr cells = NULL ↔ cells = [] := by
  cases cells with
  | nil => simp [headAddr]
  | cons c rest =>
    simp only [headAddr, reduceCtorEq, iff_false]
    exact hc.1

/-- A chain only depends on the memory at its own addresses. -/
theorem Chain.frame {h h1 : Heap} {cells : List (Ptr × Int)} (hc : Chain h cells)
    (hagree : ∀ a ∈ addrs cells, h1 a = h a) : Chain h1 cells := by
  induction cells with
  | nil => trivial
  | cons c rest ih =>
    obtain ⟨h1n, h2n, h3n⟩ := hc
    refine ⟨h1n, ?_, ih h3n ?_⟩
    · rw [hagree c.1 (by simp [addrs])]; exact h2n
    · intro a ha
      exact hagree a (by simp only [addrs, List.map_cons, List.mem_cons]; exact Or.inr ha)

theorem Chain.suffix {h : Heap} {pre suf : List (Ptr × Int)} (hc : Chain h (pre ++ suf)) :
    Chain h suf := by
  induction pre with
  | nil => exact hc
  | cons c rest ih => exact ih hc.2.2

/-- Following `next` is deterministic: two chains from the same pointer are equal. -/
theorem Chain.unique {h : Heap} : ∀ {c1 c2 : List (Ptr × Int)}, Chain h c1 → Chain h c2 →
    headAddr c1 = headAddr c2 → c1 = c2
  | [], c2, _, h2, he => ((headAddr_eq_null_iff h2).1 he.symm).symm
  | c1, [], h1, _, he => (headAddr_eq_null_iff h1).1 he
  | a :: r1, b :: r2, h1, h2, he => by
    have hab : a.1 = b.1 := he
    have hn := h1.2.1
    rw [hab, h2.2.1] at hn
    simp only [Option.some.injEq, Node.mk.injEq] at hn
    have hr := Chain.unique h1.2.2 h2.2.2 hn.2.symm
    rw [hr, Prod.ext hab hn.1.symm]

theorem Chain.acyclic {h : Heap} {cells : List (Ptr × Int)} (hc : Chain h cells) :
    Acyclic cells := by
  induction cells with
  | nil => simp [Acyclic, addrs]
  | cons c rest ih =>
    simp only [Acyclic, addrs, List.map_cons, List.nodup_cons]
    refine ⟨?_, ih hc.2.2⟩
    intro hmem
    obtain ⟨d, hd, hdc⟩ := List.mem_map.1 hmem
    obtain ⟨pre, post, hsplit⟩ := List.append_of_mem hd
    have hsuf : Chain h (d :: post) := Chain.suffix (hsplit ▸ hc.2.2)
    have heq : d :: post = c :: rest := Chain.unique hsuf hc hdc
    have hlen := congrArg List.length heq
    rw [hsplit] at hlen
    simp only [List.length_cons, List.length_append] at hlen
    omega

theorem Chain.noSharing {h : Heap} {cells : List (Ptr × Int)} (hc : Chain h cells) :
    NoSharing h cells := by
  intro a ha b hb na nb hna hnb hne hnext
  obtain ⟨ca, hca, rfl⟩ := List.mem_map.1 ha
  obtain ⟨cb, hcb, rfl⟩ := List.mem_map.1 hb
  obtain ⟨pa, qa, hsa⟩ := List.append_of_mem hca
  obtain ⟨pb, qb, hsb⟩ := List.append_of_mem hcb
  have hA : Chain h (ca :: qa) := Chain.suffix (hsa ▸ hc)
  have hB : Chain h (cb :: qb) := Chain.suffix (hsb ▸ hc)
  have e1 := hA.2.1
  have e2 := hB.2.1
  rw [hna] at e1
  rw [hnb] at e2
  simp only [Option.some.injEq] at e1 e2
  subst e1 e2
  have hq : qa = qb := Chain.unique hA.2.2 hB.2.2 hnext
  subst hq
  have hboth : pa ++ ca :: qa = pb ++ cb :: qa := hsa.symm.trans hsb
  have := List.append_inj' hboth rfl
  have hcc : ca = cb := (List.cons.inj this.2).1
  rw [hcc]

theorem IsList.wellFormed {h : Heap} {head : Ptr} {cells : List (Ptr × Int)}
    (hl : IsList h head cells) : WellFormed h head :=
  ⟨cells, hl, hl.2.acyclic, hl.2.noSharing⟩

theorem Heap.set_set (h : Heap) (p : Ptr) (a b : Option Node) :
    (h.set p a).set p b = h.set p b := by
  funext q
  by_cases hq : q = p <;> simp [Heap.set, hq]

theorem store_value_of_live {h : Heap} {p : Ptr} {nd : Node} (v : Int) (hp : p ≠ NULL)
    (hl : h p = some nd) : store_value h p v = .ok (h.set p (some ⟨v, nd.next⟩)) := by
  simp [store_value, load_of_live hp hl]

theorem store_next_of_live {h : Heap} {p : Ptr} {nd : Node} (q : Ptr) (hp : p ≠ NULL)
    (hl : h p = some nd) : store_next h p q = .ok (h.set p (some ⟨nd.value, q⟩)) := by
  simp [store_next, load_of_live hp hl]

theorem free_of_live {h : Heap} {p : Ptr} {nd : Node} (hp : p ≠ NULL) (hl : h p = some nd) :
    free h p = .ok (h.set p none) := by
  simp [free, hp, hl]

theorem headAddr_append_cons (pre : List (Ptr × Int)) (s : Ptr × Int) (suf : List (Ptr × Int)) :
    headAddr (pre ++ s :: suf) = headAddr (pre ++ [s]) := by
  cases pre <;> rfl

/-- Replace what follows the cell `s` of a chain: the cells before `s` are kept
as they are, `s` is redirected to the new tail. -/
theorem Chain.replace_tail {h0 h : Heap} {pre : List (Ptr × Int)} {s : Ptr × Int}
    (suf0 : List (Ptr × Int)) {suf : List (Ptr × Int)} (hc : Chain h0 (pre ++ s :: suf0))
    (hpre : ∀ a ∈ addrs pre, h a = h0 a) (hs : h s.1 = some ⟨s.2, headAddr suf⟩)
    (hsuf : Chain h suf) : Chain h (pre ++ s :: suf) := by
  induction pre with
  | nil => exact ⟨hc.1, hs, hsuf⟩
  | cons c rest ih =>
    refine ⟨hc.1, ?_, ih hc.2.2 ?_⟩
    · rw [hpre c.1 (by simp [addrs])]
      have := hc.2.1
      rw [List.append_eq, headAddr_append_cons] at this
      rw [List.append_eq, headAddr_append_cons]
      exact this
    · intro a ha
      exact hpre a (by simp only [addrs, List.map_cons, List.mem_cons]; exact Or.inr ha)

/-! ## `insert_at_head` -/

/-- With a successful allocation at `p`, `insert_at_head` returns `p` and leaves
the memory changed at `p` only, where the node `(new_value, head)` now lives. -/
theorem insert_at_head_eq (h : Heap) (p head : Ptr) (v : Int) (hp : p ≠ NULL) :
    insert_at_head h p head v = .ok (p, h.set p (some ⟨v, head⟩)) := by
  have h0 : (h.set p (some ⟨0, NULL⟩)) p = some ⟨0, NULL⟩ := Heap.set_same _ _ _
  have h1 : (h.set p (some ⟨v, NULL⟩)) p = some ⟨v, NULL⟩ := Heap.set_same _ _ _
  simp only [insert_at_head, calloc, if_neg hp, store_value_of_live v hp h0, Heap.set_set]
  by_cases hh : head = NULL
  · simp [hh]
  · simp [hh, store_next_of_live head hp h1, Heap.set_set]

theorem insert_at_head_isList {h : Heap} {head : Ptr} {cells : List (Ptr × Int)} {p : Ptr}
    (v : Int) (hl : IsList h head cells) (hp : p ≠ NULL) (hfresh : p ∉ addrs cells) :
    IsList (h.set p (some ⟨v, head⟩)) head cells ∧
      IsList (h.set p (some ⟨v, head⟩)) p ((p, v) :: cells) := by
  have hkeep : Chain (h.set p (some ⟨v, head⟩)) cells :=
    hl.2.frame (fun a ha => Heap.set_other _ _ _ _ (fun e => hfresh (e ▸ ha)))
  refine ⟨⟨hl.1, hkeep⟩, rfl, hp, ?_, hkeep⟩
  rw [Heap.set_same, hl.1]

/-! ## `insert_at_tail` -/

theorem headAddr_snoc_ne_null {h : Heap} {pre : List (Ptr × Int)} {t : Ptr × Int}
    (hc : Chain h (pre ++ [t])) : headAddr (pre ++ [t]) ≠ NULL := by
  intro e
  have := (headAddr_eq_null_iff hc).1 e
  simp at this

/-- On a chain, the search loop of `insert_at_tail` stops at the last node. -/
theorem insert_at_tail_loop_chain {h : Heap} : ∀ (pre : List (Ptr × Int)) (t : Ptr × Int)
    (fuel : Nat), Chain h (pre ++ [t]) → pre.length < fuel →
    insert_at_tail_loop fuel h (headAddr (pre ++ [t])) = .ok t.1
  | [], t, 0, _, hf => by simp at hf
  | [], t, fuel + 1, hc, _ => by
    have hld : load h t.1 = .ok ⟨t.2, NULL⟩ := load_of_live hc.1 hc.2.1
    simp [insert_at_tail_loop, headAddr, hld]
  | c :: r, t, 0, _, hf => by simp at hf
  | c :: r, t, fuel + 1, hc, hf => by
    have hld : load h c.1 = .ok ⟨c.2, headAddr (r ++ [t])⟩ := load_of_live hc.1 hc.2.1
    have hne : headAddr (r ++ [t]) ≠ NULL := headAddr_snoc_ne_null hc.2.2
    have ih := insert_at_tail_loop_chain r t fuel hc.2.2 (by simpa using hf)
    show insert_at_tail_loop (fuel + 1) h c.1 = .ok t.1
    simp only [insert_at_tail_loop, hld, if_pos hne]
    exact ih

/-- On the empty list `insert_at_tail` returns the new node, which has no successor. -/
theorem insert_at_tail_null (fuel : Nat) (h : Heap) (p : Ptr) (v : Int) (hp : p ≠ NULL) :
    insert_at_tail fuel h p NULL v = .ok (p, h.set p (some ⟨v, NULL⟩)) := by
  have h0 : (h.set p (some ⟨0, NULL⟩)) p = some ⟨0, NULL⟩ := Heap.set_same _ _ _
  simp [insert_at_tail, calloc, if_neg hp, store_value_of_live v hp h0, Heap.set_set]

theorem mem_addrs_snoc_left {pre : List (Ptr × Int)} {t : Ptr × Int} {a : Ptr}
    (ha : a ∈ addrs pre) : a ∈ addrs (pre ++ [t]) := by
  simp only [addrs, List.map_append, List.mem_append]
  exact Or.inl ha

theorem last_mem_addrs (pre : List (Ptr × Int)) (t : Ptr × Int) : t.1 ∈ addrs (pre ++ [t]) := by
  simp [addrs]

theorem last_not_mem_addrs_pre {h : Heap} {pre : List (Ptr × Int)} {t : Ptr × Int}
    (hc : Chain h (pre ++ [t])) : t.1 ∉ addrs pre := by
  have hn : Acyclic (pre ++ [t]) := hc.acyclic
  simp only [Acyclic, addrs, List.map_append, List.map_cons, List.map_nil] at hn
  intro hm
  exact (List.nodup_append.1 hn).2.2 hm (by simp)

/-- On a non-empty list whose last node is `t`, with a successful allocation at a
fresh address `p`, `insert_at_tail` returns `head`; the memory changes at `p`,
where the node `(new_value, NULL)` now lives, and at `t`, whose `next` becomes `p`. -/
theorem insert_at_tail_snoc {fuel : Nat} {h : Heap} {head : Ptr} {pre : List (Ptr × Int)}
    {t : Ptr × Int} {p : Ptr} (v : Int) (hl : IsList h head (pre ++ [t])) (hp : p ≠ NULL)
    (hfresh : p ∉ addrs (pre ++ [t])) (hf : pre.length < fuel) :
    insert_at_tail fuel h p head v =
      .ok (head, (h.set p (some ⟨v, NULL⟩)).set t.1 (some ⟨t.2, p⟩)) := by
  have h0 : (h.set p (some ⟨0, NULL⟩)) p = some ⟨0, NULL⟩ := Heap.set_same _ _ _
  have hhead : head ≠ NULL := hl.1 ▸ headAddr_snoc_ne_null hl.2
  have hc1 : Chain (h.set p (some ⟨v, NULL⟩)) (pre ++ [t]) :=
    hl.2.frame (fun a ha => Heap.set_other _ _ _ _ (fun e => hfresh (e ▸ ha)))
  have hloop := insert_at_tail_loop_chain pre t fuel hc1 hf
  rw [← hl.1] at hloop
  have ht : Chain (h.set p (some ⟨v, NULL⟩)) [t] := Chain.suffix hc1
  simp only [insert_at_tail, calloc, if_neg hp, store_value_of_live v hp h0, Heap.set_set,
    if_neg hhead, hloop, store_next_of_live p ht.1 ht.2.1]

theorem insert_at_tail_snoc_isList {h : Heap} {head : Ptr} {pre : List (Ptr × Int)}
    {t : Ptr × Int} {p : Ptr} (v : Int) (hl : IsList h head (pre ++ [t])) (hp : p ≠ NULL)
    (hfresh : p ∉ addrs (pre ++ [t])) :
    IsList ((h.set p (some ⟨v, NULL⟩)).set t.1 (some ⟨t.2, p⟩)) head
      ((pre ++ [t]) ++ [(p, v)]) := by
  have hpt : p ≠ t.1 := fun e => hfresh (e ▸ last_mem_addrs pre t)
  refine ⟨?_, ?_⟩
  · rw [hl.1, List.append_assoc]
    exact (headAddr_append_cons pre t _).symm
  · rw [List.append_assoc]
    refine Chain.replace_tail [] hl.2 ?_ ?_ ⟨hp, ?_, trivial⟩
    · intro a ha
      have hat : a ≠ t.1 := fun e => last_not_mem_addrs_pre hl.2 (e ▸ ha)
      have hap : a ≠ p := fun e => hfresh (e ▸ mem_addrs_snoc_left ha)
      rw [Heap.set_other _ _ _ _ hat, Heap.set_other _ _ _ _ hap]
    · rw [Heap.set_same]; rfl
    · rw [Heap.set_other _ _ _ _ hpt, Heap.set_same]; rfl

/-- A non-empty sequence of cells ends in a last cell. -/
theorem exists_snoc_of_ne_nil {cells : List (Ptr × Int)} (hne : cells ≠ []) :
    ∃ pre t, cells = pre ++ [t] := by
  rcases List.eq_nil_or_concat cells with e | ⟨pre, t, e⟩
  · exact absurd e hne
  · exact ⟨pre, t, by simpa using e⟩

/-- Specification of `insert_at_tail` on any well-formed list, with a successful
allocation at a fresh address and enough iterations for the search loop. -/
theorem insert_at_tail_spec {fuel : Nat} {h : Heap} {head : Ptr} {cells : List (Ptr × Int)}
    {p : Ptr} (v : Int) (hl : IsList h head cells) (hp : p ≠ NULL) (hfresh : p ∉ addrs cells)
    (hf : cells.length ≤ fuel) :
    ∃ hd h1, insert_at_tail fuel h p head v = .ok (hd, h1) ∧
      IsList h1 hd (cells ++ [(p, v)]) ∧ h1 p = some ⟨v, NULL⟩ := by
  by_cases hne : cells = []
  · subst hne
    have hh : head = NULL := hl.1
    subst hh
    refine ⟨p, _, insert_at_tail_null fuel h p v hp, ⟨rfl, hp, ?_, trivial⟩, ?_⟩
    · rw [Heap.set_same]; rfl
    · rw [Heap.set_same]
  · obtain ⟨pre, t, rfl⟩ := exists_snoc_of_ne_nil hne
    have hpt : p ≠ t.1 := fun e => hfresh (e ▸ last_mem_addrs pre t)
    refine ⟨head, _, insert_at_tail_snoc v hl hp hfresh ?_,
      insert_at_tail_snoc_isList v hl hp hfresh, ?_⟩
    · simp only [List.length_append, List.length_singleton] at hf
      omega
    · rw [Heap.set_other _ _ _ _ hpt, Heap.set_same]

/-! ## `delete_at_head` -/

theorem delete_at_head_null (h : Heap) : delete_at_head h NULL = .ok (NULL, h) := by
  simp [delete_at_head]

/-- On a non-empty list `delete_at_head` returns the successor of the head and
releases the head node; nothing else changes. -/
theorem delete_at_head_cons {h : Heap} {head : Ptr} {c : Ptr × Int} {rest : List (Ptr × Int)}
    (hl : IsList h head (c :: rest)) :
    delete_at_head h head = .ok (headAddr rest, h.set c.1 none) := by
  have hh : head = c.1 := hl.1
  subst hh
  have hld : load h c.1 = .ok ⟨c.2, headAddr rest⟩ := load_of_live hl.2.1 hl.2.2.1
  simp [delete_at_head, hl.2.1, hld, free_of_live hl.2.1 hl.2.2.1]

theorem head_not_mem_addrs_rest {h : Heap} {c : Ptr × Int} {rest : List (Ptr × Int)}
    (hc : Chain h (c :: rest)) : c.1 ∉ addrs rest := by
  have hn : Acyclic (c :: rest) := hc.acyclic
  simp only [Acyclic, addrs, List.map_cons, List.nodup_cons] at hn
  exact hn.1

theorem delete_at_head_isList {h : Heap} {head : Ptr} {c : Ptr × Int}
    {rest : List (Ptr × Int)} (hl : IsList h head (c :: rest)) :
    IsList (h.set c.1 none) (headAddr rest) rest :=
  ⟨rfl, hl.2.2.2.frame (fun _ ha =>
    Heap.set_other _ _ _ _ (fun e => head_not_mem_addrs_rest hl.2 (e ▸ ha)))⟩

/-! ## `delete_at_tail` -/

theorem delete_at_tail_null (fuel : Nat) (h : Heap) :
    delete_at_tail fuel h NULL = .ok (NULL, h) := by
  simp [delete_at_tail]

/-- On a one-node list `delete_at_tail` releases the node and returns `NULL`. -/
theorem delete_at_tail_single {h : Heap} {head : Ptr} {t : Ptr × Int} (fuel : Nat)
    (hl : IsList h head [t]) : delete_at_tail fuel h head = .ok (NULL, h.set t.1 none) := by
  have hh : head = t.1 := hl.1
  subst hh
  have hld : load h t.1 = .ok ⟨t.2, NULL⟩ := load_of_live hl.2.1 hl.2.2.1
  simp [delete_at_tail, hl.2.1, hld, free_of_live hl.2.1 hl.2.2.1]

theorem headAddr_ne_null {h : Heap} {cells : List (Ptr × Int)} (hc : Chain h cells)
    (hne : cells ≠ []) : headAddr cells ≠ NULL :=
  fun e => hne ((headAddr_eq_null_iff hc).1 e)

/-- On a chain of two or more nodes, the search loop of `delete_at_tail` stops
with `current` at the last node and `prev` at the node just before it. -/
theorem delete_at_tail_loop_chain {h : Heap} : ∀ (pre : List (Ptr × Int)) (s t : Ptr × Int)
    (fuel : Nat) (prev : Ptr), Chain h (pre ++ [s, t]) → pre.length + 1 < fuel →
    delete_at_tail_loop fuel h (headAddr (pre ++ [s, t])) prev = .ok (t.1, s.1)
  | [], s, t, 0, _, _, hf => by simp at hf
  | [], s, t, 1, _, _, hf => by simp at hf
  | [], s, t, fuel + 2, prev, hc, _ => by
    have hs : load h s.1 = .ok ⟨s.2, t.1⟩ := load_of_live hc.1 hc.2.1
    have ht : load h t.1 = .ok ⟨t.2, NULL⟩ := load_of_live hc.2.2.1 hc.2.2.2.1
    have hne : t.1 ≠ NULL := hc.2.2.1
    show delete_at_tail_loop (fuel + 2) h s.1 prev = .ok (t.1, s.1)
    simp [delete_at_tail_loop, hs, ht, hne]
  | c :: r, s, t, 0, _, _, hf => by simp at hf
  | c :: r, s, t, fuel + 1, prev, hc, hf => by
    have hld : load h c.1 = .ok ⟨c.2, headAddr (r ++ [s, t])⟩ := load_of_live hc.1 hc.2.1
    have hne : headAddr (r ++ [s, t]) ≠ NULL := headAddr_ne_null hc.2.2 (by simp)
    have ih := delete_at_tail_loop_chain r s t fuel c.1 hc.2.2 (by simpa using hf)
    show delete_at_tail_loop (fuel + 1) h c.1 prev = .ok (t.1, s.1)
    simp only [delete_at_tail_loop, hld, if_pos hne]
    exact ih

/-- The last two nodes of a chain are distinct and differ from every node
before them. -/
theorem last_two_distinct {h : Heap} {pre : List (Ptr × Int)} {s t : Ptr × Int}
    (hc : Chain h (pre ++ [s, t])) : s.1 ≠ t.1 ∧ s.1 ∉ addrs pre ∧ t.1 ∉ addrs pre := by
  have hn : Acyclic (pre ++ [s, t]) := hc.acyclic
  simp only [Acyclic, addrs, List.map_append, List.map_cons, List.map_nil] at hn
  have h3 := List.nodup_append.1 hn
  refine ⟨?_, fun hm => h3.2.2 hm (by simp), fun hm => h3.2.2 hm (by simp)⟩
  have := h3.2.1
  simp only [List.nodup_cons, List.mem_singleton] at this
  exact this.1

/-- The first node of a chain of two or more nodes has a successor. -/
theorem load_head_next_ne_null {h : Heap} {pre : List (Ptr × Int)} {s t : Ptr × Int}
    (hc : Chain h (pre ++ [s, t])) :
    ∃ nd, load h (headAddr (pre ++ [s, t])) = .ok nd ∧ nd.next ≠ NULL := by
  cases pre with
  | nil => exact ⟨⟨s.2, t.1⟩, load_of_live hc.1 hc.2.1, hc.2.2.1⟩
  | cons c r =>
    exact ⟨⟨c.2, headAddr (r ++ [s, t])⟩, load_of_live hc.1 hc.2.1,
      headAddr_ne_null hc.2.2 (by simp)⟩

/-- On a list of two or more nodes ending in `s, t`, `delete_at_tail` returns
`head`, clears the `next` of `s` and releases `t`; nothing else changes. -/
theorem delete_at_tail_snoc2 {fuel : Nat} {h : Heap} {head : Ptr} {pre : List (Ptr × Int)}
    {s t : Ptr × Int} (hl : IsList h head (pre ++ [s, t])) (hf : pre.length + 1 < fuel) :
    delete_at_tail fuel h head =
      .ok (head, (h.set s.1 (some ⟨s.2, NULL⟩)).set t.1 none) := by
  have hhead : head ≠ NULL := hl.1 ▸ headAddr_ne_null hl.2 (by simp)
  obtain ⟨nd, hnd, hnext⟩ := load_head_next_ne_null hl.2
  have hloop := delete_at_tail_loop_chain pre s t fuel NULL hl.2 hf
  rw [← hl.1] at hnd hloop
  have hst : Chain h [s, t] := Chain.suffix hl.2
  have hd := last_two_distinct hl.2
  have ht1 : (h.set s.1 (some ⟨s.2, NULL⟩)) t.1 = some ⟨t.2, NULL⟩ := by
    rw [Heap.set_other _ _ _ _ (Ne.symm hd.1)]; exact hst.2.2.2.1
  simp only [delete_at_tail, if_neg hhead, hnd, if_neg hnext, hloop,
    store_next_of_live NULL hst.1 hst.2.1, free_of_live hst.2.2.1 ht1]

theorem delete_at_tail_snoc2_isList {h : Heap} {head : Ptr} {pre : List (Ptr × Int)}
    {s t : Ptr × Int} (hl : IsList h head (pre ++ [s, t])) :
    IsList ((h.set s.1 (some ⟨s.2, NULL⟩)).set t.1 none) head (pre ++ [s]) := by
  have hd := last_two_distinct hl.2
  refine ⟨hl.1.trans (headAddr_append_cons pre s [t]), ?_⟩
  refine Chain.replace_tail [t] hl.2 ?_ ?_ trivial
  · intro a ha
    have hat : a ≠ t.1 := fun e => hd.2.2 (e ▸ ha)
    have has : a ≠ s.1 := fun e => hd.2.1 (e ▸ ha)
    rw [Heap.set_other _ _ _ _ hat, Heap.set_other _ _ _ _ has]
  · rw [Heap.set_other _ _ _ _ hd.1, Heap.set_same]; rfl

/-- Specification of `delete_at_tail` on any well-formed list, with enough
iterations for the search loop: the result is the list without its last node. -/
theorem delete_at_tail_spec (fuel : Nat) {h : Heap} {head : Ptr} {cells : List (Ptr × Int)}
    (hl : IsList h head cells) (hf : cells.length ≤ fuel) :
    ∃ hd h1, delete_at_tail fuel h head = .ok (hd, h1) ∧ IsList h1 hd cells.dropLast := by
  rcases List.eq_nil_or_concat cells with e | ⟨pre, t, e⟩
  · subst e
    have hh : head = NULL := hl.1
    subst hh
    exact ⟨NULL, h, delete_at_tail_null fuel h, rfl, trivial⟩
  · rw [List.concat_eq_append] at e
    subst e
    rcases List.eq_nil_or_concat pre with e | ⟨pre2, s, e⟩
    · subst e
      exact ⟨NULL, _, delete_at_tail_single fuel hl, rfl, trivial⟩
    · rw [List.concat_eq_append] at e
      subst e
      have hl2 : IsList h head (pre2 ++ [s, t]) := by simpa using hl
      have hf2 : pre2.length + 1 < fuel := by
        simp only [List.length_append, List.length_singleton] at hf
        omega
      refine ⟨head, _, delete_at_tail_snoc2 hl2 hf2, ?_⟩
      rw [List.dropLast_concat]
      exact delete_at_tail_snoc2_isList hl2

/-! ## `print_list` -/

/-- On a chain, the loop of `print_list` appends one line per node and stops. -/
theorem print_list_loop_chain {h : Heap} : ∀ (cells : List (Ptr × Int)) (fuel : Nat) (i : Int)
    (out : List String), Chain h cells → cells.length < fuel →
    print_list_loop fuel h (headAddr cells) i out = .ok (out ++ node_lines i cells)
  | _, 0, _, _, _, hf => by simp at hf
  | [], fuel + 1, i, out, _, _ => by
    simp [print_list_loop, headAddr, node_lines]
  | c :: rest, fuel + 1, i, out, hc, hf => by
    have hld : load h c.1 = .ok ⟨c.2, headAddr rest⟩ := load_of_live hc.1 hc.2.1
    have hne : c.1 ≠ NULL := hc.1
    have ih := print_list_loop_chain rest fuel (wrap32 (i + 1)) (out ++ [printf_node i c.2])
      hc.2.2 (by simpa using hf)
    show print_list_loop (fuel + 1) h c.1 i out = .ok (out ++ node_lines i (c :: rest))
    simp only [print_list_loop, if_pos hne, hld, ih, node_lines, List.append_assoc,
      List.singleton_append]

theorem print_list_isList {fuel : Nat} {h : Heap} {head : Ptr} {cells : List (Ptr × Int)}
    (hl : IsList h head cells) (hf : cells.length < fuel) :
    print_list fuel h head = .ok (node_lines 0 cells) := by
  rw [print_list, hl.1, print_list_loop_chain cells fuel 0 [] hl.2 hf, List.nil_append]

/-! ## Repeated insertion -/

theorem insert_all_at_head_isList : ∀ (allocs : List (Ptr × Int)) (h : Heap) (head : Ptr)
    (cells : List (Ptr × Int)), IsList h head cells → (∀ a ∈ addrs allocs, a ≠ NULL) →
    (addrs allocs).Nodup → (∀ a ∈ addrs allocs, a ∉ addrs cells) →
    ∃ hd h1, insert_all_at_head h head allocs = .ok (hd, h1) ∧
      IsList h1 hd (allocs.reverse ++ cells)
  | [], h, head, cells, hl, _, _, _ => ⟨head, h, rfl, by simpa using hl⟩
  | c :: rest, h, head, cells, hl, hnn, hnd, hdisj => by
    have hc : c.1 ≠ NULL := hnn c.1 (by simp [addrs])
    have hfresh : c.1 ∉ addrs cells := hdisj c.1 (by simp [addrs])
    simp only [addrs, List.map_cons, List.nodup_cons] at hnd
    have hl1 : IsList (h.set c.1 (some ⟨c.2, head⟩)) c.1 (c :: cells) :=
      (insert_at_head_isList c.2 hl hc hfresh).2
    obtain ⟨hd, h1, hrun, hres⟩ := insert_all_at_head_isList rest _ c.1 (c :: cells) hl1
      (fun a ha => hnn a (by simp only [addrs, List.map_cons, List.mem_cons]; exact Or.inr ha))
      hnd.2
      (fun a ha hmem => by
        simp only [addrs, List.map_cons, List.mem_cons] at hmem
        rcases hmem with e | hm
        · exact hnd.1 (e ▸ ha)
        · exact hdisj a (by simp only [addrs, List.map_cons, List.mem_cons]; exact Or.inr ha) hm)
    refine ⟨hd, h1, ?_, ?_⟩
    · simp only [insert_all_at_head, insert_at_head_eq h c.1 head c.2 hc]
      exact hrun
    · simpa [List.reverse_cons, List.append_assoc] using hres

theorem insert_all_at_tail_isList (fuel : Nat) : ∀ (allocs : List (Ptr × Int)) (h : Heap)
    (head : Ptr) (cells : List (Ptr × Int)), IsList h head cells →
    (∀ a ∈ addrs allocs, a ≠ NULL) → (addrs allocs).Nodup →
    (∀ a ∈ addrs allocs, a ∉ addrs cells) → cells.length + allocs.length ≤ fuel →
    ∃ hd h1, insert_all_at_tail fuel h head allocs = .ok (hd, h1) ∧
      IsList h1 hd (cells ++ allocs)
  | [], h, head, cells, hl, _, _, _, _ => ⟨head, h, rfl, by simpa using hl⟩
  | c :: rest, h, head, cells, hl, hnn, hnd, hdisj, hf => by
    have hc : c.1 ≠ NULL := hnn c.1 (by simp [addrs])
    have hfresh : c.1 ∉ addrs cells := hdisj c.1 (by simp [addrs])
    simp only [addrs, List.map_cons, List.nodup_cons] at hnd
    simp only [List.length_cons] at hf
    obtain ⟨hd0, h0, hrun0, hl0, _⟩ := insert_at_tail_spec c.2 hl hc hfresh (show cells.length ≤ fuel by omega)
    obtain ⟨hd, h1, hrun, hres⟩ := insert_all_at_tail_isList fuel rest h0 hd0 (cells ++ [c]) hl0
      (fun a ha => hnn a (by simp only [addrs, List.map_cons, List.mem_cons]; exact Or.inr ha))
      hnd.2
      (fun a ha hmem => by
        simp only [addrs, List.map_append, List.map_cons, List.map_nil, List.mem_append,
          List.mem_singleton] at hmem
        rcases hmem with hm | e
        · exact hdisj a (by simp only [addrs, List.map_cons, List.mem_cons]; exact Or.inr ha) hm
        · exact hnd.1 (e ▸ ha))
      (by simp only [List.length_append, List.length_singleton]; omega)
    refine ⟨hd, h1, ?_, ?_⟩
    · simp only [insert_all_at_tail, hrun0]
      exact hrun
    · simpa [List.append_assoc] using hres

/-! ## The claims -/

/-- C1: for a well-formed list `head` with cells `cells` and an integer `v`, with
the allocation succeeding at an address `p` outside the list, `insert_at_head`
returns the new node `p`; that node holds `v`, its successor is `head`, the chain
from `head` is still exactly `cells`, and the value sequence of the result is `v`
followed by the value sequence of the list. -/
theorem insert_at_head_prepends (h : Heap) (head : Ptr) (cells : List (Ptr × Int)) (p : Ptr)
    (v : Int) (hl : IsList h head cells) (hp : p ≠ NULL) (hfresh : p ∉ addrs cells) :
    ∃ h1, insert_at_head h p head v = .ok (p, h1) ∧ h1 p = some ⟨v, head⟩ ∧
      IsList h1 head cells ∧ IsList h1 p ((p, v) :: cells) ∧
      values ((p, v) :: cells) = v :: values cells :=
  ⟨h.set p (some ⟨v, head⟩), insert_at_head_eq h p head v hp, Heap.set_same _ _ _,
    (insert_at_head_isList v hl hp hfresh).1, (insert_at_head_isList v hl hp hfresh).2, rfl⟩

/-- Witness of C1: inserting 3 at the head of the chain 5, 6, 7, the new node
being placed at address 4. -/
theorem insert_at_head_prepends_witness :
    IsList abc_heap 1 abc_cells ∧ (4 : Ptr) ≠ NULL ∧ (4 : Ptr) ∉ addrs abc_cells ∧
    ∃ h1, insert_at_head abc_heap 4 1 3 = .ok (4, h1) ∧ h1 4 = some ⟨3, 1⟩ ∧
      IsList h1 1 abc_cells ∧ IsList h1 4 ((4, 3) :: abc_cells) ∧
      values ((4, 3) :: abc_cells) = 3 :: values abc_cells :=
  ⟨by decide, by decide, by decide,
    insert_at_head_prepends abc_heap 1 abc_cells 4 3 (by decide) (by decide) (by decide)⟩

/-- C2: for a well-formed list `head` with cells `cells` and an integer `v`, with
the allocation succeeding at an address `p` outside the list and the search loop
given at least as many iterations as the list has nodes, `insert_at_tail` returns
a list whose value sequence is that of the list followed by `v`; the new node has
no successor, and on the empty list the result is the one-node list `[v]` headed
by the new node. -/
theorem insert_at_tail_appends (fuel : Nat) (h : Heap) (head : Ptr) (cells : List (Ptr × Int))
    (p : Ptr) (v : Int) (hl : IsList h head cells) (hp : p ≠ NULL) (hfresh : p ∉ addrs cells)
    (hf : cells.length ≤ fuel) :
    ∃ hd h1, insert_at_tail fuel h p head v = .ok (hd, h1) ∧
      IsList h1 hd (cells ++ [(p, v)]) ∧ values (cells ++ [(p, v)]) = values cells ++ [v] ∧
      h1 p = some ⟨v, NULL⟩ ∧ (cells = [] → hd = p ∧ IsList h1 hd [(p, v)]) := by
  obtain ⟨hd, h1, hrun, hres, hnew⟩ := insert_at_tail_spec v hl hp hfresh hf
  refine ⟨hd, h1, hrun, hres, by simp [values], hnew, ?_⟩
  intro he
  subst he
  exact ⟨hres.1, hres⟩

/-- Witness of C2: appending 10 to the chain 5, 6, 7, the new node being placed
at address 4. -/
theorem insert_at_tail_appends_witness :
    IsList abc_heap 1 abc_cells ∧ (4 : Ptr) ∉ addrs abc_cells ∧
    ∃ hd h1, insert_at_tail 3 abc_heap 4 1 10 = .ok (hd, h1) ∧
      IsList h1 hd (abc_cells ++ [(4, 10)]) ∧
      values (abc_cells ++ [(4, 10)]) = values abc_cells ++ [10] ∧
      h1 4 = some ⟨10, NULL⟩ ∧ (abc_cells = [] → hd = 4 ∧ IsList h1 hd [(4, 10)]) :=
  ⟨by decide, by decide,
    insert_at_tail_appends 3 abc_heap 1 abc_cells 4 10 (by decide) (by decide) (by decide)
      (by decide)⟩

/-- C3: on a list of length `n ≥ 1`, `delete_at_head` returns a list of length
`n - 1` whose cells are the original ones without the first: the element
formerly at position `i + 1` is at position `i`, for every `i < n - 1`. -/
theorem delete_at_head_removes_first (h : Heap) (head : Ptr) (cells : List (Ptr × Int))
    (hl : IsList h head cells) (hn : 1 ≤ cells.length) :
    ∃ hd h1, delete_at_head h head = .ok (hd, h1) ∧ IsList h1 hd cells.tail ∧
      cells.tail.length + 1 = cells.length ∧ values cells.tail = (values cells).tail ∧
      ∀ i, i < cells.length - 1 → (values cells.tail)[i]? = (values cells)[i + 1]? := by
  cases cells with
  | nil => simp at hn
  | cons c rest =>
    exact ⟨headAddr rest, h.set c.1 none, delete_at_head_cons hl, delete_at_head_isList hl,
      by simp, by simp [values], fun i _ => by simp [values]⟩

/-- Witness of C3: deleting the head of the chain 5, 6, 7. -/
theorem delete_at_head_removes_first_witness :
    IsList abc_heap 1 abc_cells ∧ 1 ≤ abc_cells.length ∧
    ∃ hd h1, delete_at_head abc_heap 1 = .ok (hd, h1) ∧ IsList h1 hd abc_cells.tail ∧
      abc_cells.tail.length + 1 = abc_cells.length ∧
      values abc_cells.tail = (values abc_cells).tail ∧
      ∀ i, i < abc_cells.length - 1 → (values abc_cells.tail)[i]? = (values abc_cells)[i + 1]? :=
  ⟨by decide, by decide, delete_at_head_removes_first abc_heap 1 abc_cells (by decide) (by decide)⟩

/-- C4: on a list of length `n ≥ 1`, with the search loop given at least `n`
iterations, `delete_at_tail` returns a list of length `n - 1` whose cells are the
original ones without the last: every position `i < n - 1` is unchanged and the
element formerly at position `n - 1` is gone. -/
theorem delete_at_tail_removes_last (fuel : Nat) (h : Heap) (head : Ptr)
    (cells : List (Ptr × Int)) (hl : IsList h head cells) (hn : 1 ≤ cells.length)
    (hf : cells.length ≤ fuel) :
    ∃ hd h1, delete_at_tail fuel h head = .ok (hd, h1) ∧ IsList h1 hd cells.dropLast ∧
      cells.dropLast.length + 1 = cells.length ∧
      values cells.dropLast = (values cells).dropLast ∧
      (∀ i, i < cells.length - 1 → (values cells.dropLast)[i]? = (values cells)[i]?) ∧
      (values cells.dropLast)[cells.length - 1]? = none := by
  obtain ⟨hd, h1, hrun, hres⟩ := delete_at_tail_spec fuel hl hf
  refine ⟨hd, h1, hrun, hres, by simp only [List.length_dropLast]; omega, by simp [values],
    ?_, ?_⟩
  · intro i hi
    have hi2 : i < (List.map Prod.snd cells).length - 1 := by simpa using hi
    simp only [values, List.map_dropLast, List.getElem?_dropLast, if_pos hi2]
  · simp [values]

/-- Witness of C4: deleting the tail of the chain 5, 6, 7. -/
theorem delete_at_tail_removes_last_witness :
    IsList abc_heap 1 abc_cells ∧ 1 ≤ abc_cells.length ∧
    ∃ hd h1, delete_at_tail 3 abc_heap 1 = .ok (hd, h1) ∧ IsList h1 hd abc_cells.dropLast ∧
      abc_cells.dropLast.length + 1 = abc_cells.length ∧
      values abc_cells.dropLast = (values abc_cells).dropLast ∧
      (∀ i, i < abc_cells.length - 1 →
        (values abc_cells.dropLast)[i]? = (values abc_cells)[i]?) ∧
      (values abc_cells.dropLast)[abc_cells.length - 1]? = none :=
  ⟨by decide, by decide,
    delete_at_tail_removes_last 3 abc_heap 1 abc_cells (by decide) (by decide) (by decide)⟩

/-- C5: applying `insert_at_head` for the values `v1, ..., vk` in that order to the
empty list, the i-th allocation succeeding at the address `ps[i]` and the
addresses being pairwise distinct, yields a well-formed list whose traversal
order is `vk, ..., v1`, the reverse of the insertion order. -/
theorem insert_at_head_sequence_reversed (h : Heap) (ps : List Ptr) (vs : List Int)
    (hlen : ps.length = vs.length) (hnn : ∀ a ∈ ps, a ≠ NULL) (hnd : ps.Nodup) :
    ∃ hd h1 cells, insert_all_at_head h NULL (ps.zip vs) = .ok (hd, h1) ∧
      IsList h1 hd cells ∧ values cells = vs.reverse := by
  have hps : addrs (ps.zip vs) = ps := List.map_fst_zip ps vs (le_of_eq hlen)
  have hvs : values (ps.zip vs) = vs := List.map_snd_zip ps vs (le_of_eq hlen.symm)
  obtain ⟨hd, h1, hrun, hres⟩ := insert_all_at_head_isList (ps.zip vs) h NULL []
    ⟨rfl, trivial⟩ (hps.symm ▸ hnn) (hps.symm ▸ hnd) (fun _ _ hm => by simp [addrs] at hm)
  refine ⟨hd, h1, (ps.zip vs).reverse, hrun, by simpa using hres, ?_⟩
  have hrev : values (ps.zip vs).reverse = (values (ps.zip vs)).reverse := by simp [values]
  rw [hrev, hvs]

/-- Witness of C5: the three head insertions 7, 5, 3 of the demos, the nodes
being placed at the addresses 1, 2, 3. -/
theorem insert_at_head_sequence_reversed_witness :
    ∃ hd h1 cells, insert_all_at_head emptyHeap NULL ([1, 2, 3].zip [7, 5, 3]) = .ok (hd, h1) ∧
      IsList h1 hd cells ∧ values cells = [7, 5, 3].reverse :=
  insert_at_head_sequence_reversed emptyHeap [1, 2, 3] [7, 5, 3] (by decide) (by decide)
    (by decide)

/-- C6: applying `insert_at_tail` for the values `v1, ..., vk` in that order to the
empty list, the i-th allocation succeeding at the address `ps[i]`, the addresses
being pairwise distinct and the search loop given at least `k` iterations, yields
a well-formed list whose traversal order is `v1, ..., vk`, the insertion order. -/
theorem insert_at_tail_sequence_in_order (fuel : Nat) (h : Heap) (ps : List Ptr)
    (vs : List Int) (hlen : ps.length = vs.length) (hnn : ∀ a ∈ ps, a ≠ NULL)
    (hnd : ps.Nodup) (hf : vs.length ≤ fuel) :
    ∃ hd h1 cells, insert_all_at_tail fuel h NULL (ps.zip vs) = .ok (hd, h1) ∧
      IsList h1 hd cells ∧ values cells = vs := by
  have hps : addrs (ps.zip vs) = ps := List.map_fst_zip ps vs (le_of_eq hlen)
  have hvs : values (ps.zip vs) = vs := List.map_snd_zip ps vs (le_of_eq hlen.symm)
  obtain ⟨hd, h1, hrun, hres⟩ := insert_all_at_tail_isList fuel (ps.zip vs) h NULL []
    ⟨rfl, trivial⟩ (hps.symm ▸ hnn) (hps.symm ▸ hnd) (fun _ _ hm => by simp [addrs] at hm)
    (by simp only [List.length_nil, List.length_zip, hlen]; omega)
  exact ⟨hd, h1, ps.zip vs, hrun, by simpa using hres, hvs⟩

/-- Witness of C6: the tail insertions 10, 12, 14 of the insertion demo applied
to an empty list, the nodes being placed at the addresses 4, 5, 6. -/
theorem insert_at_tail_sequence_in_order_witness :
    ∃ hd h1 cells, insert_all_at_tail 3 emptyHeap NULL ([4, 5, 6].zip [10, 12, 14]) =
        .ok (hd, h1) ∧ IsList h1 hd cells ∧ values cells = [10, 12, 14] :=
  insert_at_tail_sequence_in_order 3 emptyHeap [4, 5, 6] [10, 12, 14] (by decide) (by decide)
    (by decide) (by decide)

/-- C7: round trip. For a well-formed list `head` with cells `cells` and an
integer `v`, with the allocation succeeding at an address outside the list and
both search loops given enough iterations, `delete_at_tail` applied to the result
of `insert_at_tail` returns a list with the very cells of the original, so with
the same head-to-tail value sequence. -/
theorem delete_at_tail_insert_at_tail (f1 f2 : Nat) (h : Heap) (head : Ptr)
    (cells : List (Ptr × Int)) (p : Ptr) (v : Int) (hl : IsList h head cells) (hp : p ≠ NULL)
    (hfresh : p ∉ addrs cells) (hf1 : cells.length ≤ f1) (hf2 : cells.length + 1 ≤ f2) :
    ∃ hd1 h1 hd2 h2 cells2, insert_at_tail f1 h p head v = .ok (hd1, h1) ∧
      delete_at_tail f2 h1 hd1 = .ok (hd2, h2) ∧ IsList h2 hd2 cells2 ∧
      values cells2 = values cells := by
  obtain ⟨hd1, h1, hrun1, hres1, _⟩ := insert_at_tail_spec v hl hp hfresh hf1
  obtain ⟨hd2, h2, hrun2, hres2⟩ := delete_at_tail_spec f2 hres1 (by simpa using hf2)
  rw [List.dropLast_concat] at hres2
  exact ⟨hd1, h1, hd2, h2, cells, hrun1, hrun2, hres2, rfl⟩

/-- Witness of C7: appending 10 to the chain 5, 6, 7 at address 4 and deleting
the tail again. -/
theorem delete_at_tail_insert_at_tail_witness :
    IsList abc_heap 1 abc_cells ∧
    ∃ hd1 h1 hd2 h2 cells2, insert_at_tail 3 abc_heap 4 1 10 = .ok (hd1, h1) ∧
      delete_at_tail 4 h1 hd1 = .ok (hd2, h2) ∧ IsList h2 hd2 cells2 ∧
      values cells2 = values abc_cells :=
  ⟨by decide, delete_at_tail_insert_at_tail 3 4 abc_heap 1 abc_cells 4 10 (by decide)
    (by decide) (by decide) (by decide) (by decide)⟩

/-- C8: when `calloc` returns `NULL`, `insert_at_head` and `insert_at_tail` go on
to write `new_value` through the null pointer: the run ends in an invalid memory
access, whatever the list, the value and the iteration budget, and no result is
returned. -/
theorem insert_with_failed_allocation (fuel : Nat) (h : Heap) (head : Ptr) (v : Int) :
    insert_at_head h NULL head v = .error .invalidAccess ∧
      insert_at_tail fuel h NULL head v = .error .invalidAccess := by
  simp [insert_at_head, insert_at_tail, calloc, store_value, load]

/-- C9: on a well-formed chain, with the loops given more iterations than the
chain has nodes, `delete_at_head`, `delete_at_tail` and `print_list` all return:
no loop runs out of iterations and no access through `NULL` or through an
address without a live node occurs. When the chain has two or more nodes, the
search loop of `delete_at_tail` ends with `current` at the terminal node `t` and
`prev` at a non-null live node `s` whose `next` is `t`, so the write
`prev->next = NULL` succeeds. -/
theorem delete_and_print_total (fuel : Nat) (h : Heap) (head : Ptr) (cells : List (Ptr × Int))
    (hl : IsList h head cells) (hf : cells.length < fuel) :
    (∃ r, delete_at_head h head = .ok r) ∧ (∃ r, delete_at_tail fuel h head = .ok r) ∧
    (∃ out, print_list fuel h head = .ok out) ∧
    (2 ≤ cells.length → ∃ pre s t, cells = pre ++ [s, t] ∧
      delete_at_tail_loop fuel h head NULL = .ok (t.1, s.1) ∧ s.1 ≠ NULL ∧
      h s.1 = some ⟨s.2, t.1⟩ ∧ h t.1 = some ⟨t.2, NULL⟩ ∧
      store_next h s.1 NULL = .ok (h.set s.1 (some ⟨s.2, NULL⟩))) := by
  refine ⟨?_, ?_, ⟨_, print_list_isList hl hf⟩, ?_⟩
  · cases cells with
    | nil =>
      have hh : head = NULL := hl.1
      subst hh
      exact ⟨_, delete_at_head_null h⟩
    | cons c rest => exact ⟨_, delete_at_head_cons hl⟩
  · obtain ⟨hd, h1, hrun, _⟩ := delete_at_tail_spec fuel hl (Nat.le_of_lt hf)
    exact ⟨_, hrun⟩
  · intro h2
    rcases List.eq_nil_or_concat cells with e | ⟨pre, t, e⟩
    · subst e
      simp at h2
    · rw [List.concat_eq_append] at e
      subst e
      rcases List.eq_nil_or_concat pre with e | ⟨pre2, s, e⟩
      · subst e
        simp at h2
      · rw [List.concat_eq_append] at e
        subst e
        have hl2 : IsList h head (pre2 ++ [s, t]) := by simpa using hl
        have hf2 : pre2.length + 1 < fuel := by
          simp only [List.length_append, List.length_singleton] at hf
          omega
        have hst : Chain h [s, t] := Chain.suffix hl2.2
        have hloop := delete_at_tail_loop_chain pre2 s t fuel NULL hl2.2 hf2
        rw [← hl2.1] at hloop
        exact ⟨pre2, s, t, by simp, hloop, hst.1, hst.2.1, hst.2.2.2.1,
          store_next_of_live NULL hst.1 hst.2.1⟩

/-- Witness of C9: the chain 5, 6, 7 with four iterations for each loop. -/
theorem delete_and_print_total_witness :
    IsList abc_heap 1 abc_cells ∧ abc_cells.length < 4 ∧
    (∃ r, delete_at_head abc_heap 1 = .ok r) ∧ (∃ r, delete_at_tail 4 abc_heap 1 = .ok r) ∧
    (∃ out, print_list 4 abc_heap 1 = .ok out) ∧
    (2 ≤ abc_cells.length → ∃ pre s t, abc_cells = pre ++ [s, t] ∧
      delete_at_tail_loop 4 abc_heap 1 NULL = .ok (t.1, s.1) ∧ s.1 ≠ NULL ∧
      abc_heap s.1 = some ⟨s.2, t.1⟩ ∧ abc_heap t.1 = some ⟨t.2, NULL⟩ ∧
      store_next abc_heap s.1 NULL = .ok (abc_heap.set s.1 (some ⟨s.2, NULL⟩))) :=
  ⟨by decide, by decide, delete_and_print_total 4 abc_heap 1 abc_cells (by decide) (by decide)⟩

/-- C10: well-formedness is preserved. If the chain from `head` reaches a node
with empty `next`, is acyclic and has no node referenced by two `next` slots,
then the chain returned by each of `insert_at_head`, `insert_at_tail`,
`delete_at_head` and `delete_at_tail` has the same three properties; the
insertions are taken with a successful allocation at an address that is not a
node of the chain, the search loops with enough iterations. -/
theorem operations_preserve_wellFormed (fuel : Nat) (h : Heap) (head : Ptr)
    (cells : List (Ptr × Int)) (p : Ptr) (v : Int)
    (hw : IsList h head cells ∧ Acyclic cells ∧ NoSharing h cells) (hp : p ≠ NULL)
    (hfresh : p ∉ addrs cells) (hf : cells.length ≤ fuel) :
    (∃ hd h1, insert_at_head h p head v = .ok (hd, h1) ∧ WellFormed h1 hd) ∧
    (∃ hd h1, insert_at_tail fuel h p head v = .ok (hd, h1) ∧ WellFormed h1 hd) ∧
    (∃ hd h1, delete_at_head h head = .ok (hd, h1) ∧ WellFormed h1 hd) ∧
    (∃ hd h1, delete_at_tail fuel h head = .ok (hd, h1) ∧ WellFormed h1 hd) := by
  have hl := hw.1
  refine ⟨?_, ?_, ?_, ?_⟩
  · exact ⟨p, _, insert_at_head_eq h p head v hp,
      (insert_at_head_isList v hl hp hfresh).2.wellFormed⟩
  · obtain ⟨hd, h1, hrun, hres, _⟩ := insert_at_tail_spec v hl hp hfresh hf
    exact ⟨hd, h1, hrun, hres.wellFormed⟩
  · cases cells with
    | nil =>
      have hh : head = NULL := hl.1
      subst hh
      exact ⟨NULL, h, delete_at_head_null h, hl.wellFormed⟩
    | cons c rest =>
      exact ⟨_, _, delete_at_head_cons hl, (delete_at_head_isList hl).wellFormed⟩
  · obtain ⟨hd, h1, hrun, hres⟩ := delete_at_tail_spec fuel hl hf
    exact ⟨hd, h1, hrun, hres.wellFormed⟩

/-- Witness of C10: the four operations on the chain 5, 6, 7, a new node being
placed at address 4. -/
theorem operations_preserve_wellFormed_witness :
    (IsList abc_heap 1 abc_cells ∧ Acyclic abc_cells ∧ NoSharing abc_heap abc_cells) ∧
    (∃ hd h1, insert_at_head abc_heap 4 1 3 = .ok (hd, h1) ∧ WellFormed h1 hd) ∧
    (∃ hd h1, insert_at_tail 3 abc_heap 4 1 3 = .ok (hd, h1) ∧ WellFormed h1 hd) ∧
    (∃ hd h1, delete_at_head abc_heap 1 = .ok (hd, h1) ∧ WellFormed h1 hd) ∧
    (∃ hd h1, delete_at_tail 3 abc_heap 1 = .ok (hd, h1) ∧ WellFormed h1 hd) :=
  have hl : IsList abc_heap 1 abc_cells := by decide
  ⟨⟨hl, hl.2.acyclic, hl.2.noSharing⟩,
    operations_preserve_wellFormed 3 abc_heap 1 abc_cells 4 3
      ⟨hl, hl.2.acyclic, hl.2.noSharing⟩ (by decide) (by decide) (by decide)⟩

/-! ## The text written by `print_list` -/

theorem wrap32_add (a b : Int) : wrap32 (wrap32 a + b) = wrap32 (a + b) := by
  unfold wrap32
  omega

theorem wrap32_of_range {x : Int} (h1 : -2147483648 ≤ x) (h2 : x < 2147483648) :
    wrap32 x = x := by
  unfold wrap32
  omega

theorem node_lines_length : ∀ (cells : List (Ptr × Int)) (i : Int),
    (node_lines i cells).length = cells.length
  | [], _ => rfl
  | _ :: rest, i => by
    simp only [node_lines, List.length_cons, node_lines_length rest]

/-- Line `k` of the text is made from cell `k`, with the counter wrapped as
`print_list` does; `i` is the counter at the first cell. -/
theorem node_lines_getElem_opt : ∀ (cells : List (Ptr × Int)) (i : Int) (k : Nat),
    wrap32 i = i →
    (node_lines i cells)[k]? = (cells[k]?).map (fun c => printf_node (wrap32 (i + k)) c.2)
  | [], _, _, _ => by simp [node_lines]
  | c :: rest, i, 0, hi => by simp [node_lines, hi]
  | c :: rest, i, k + 1, _ => by
    have ih := node_lines_getElem_opt rest (wrap32 (i + 1)) k (by
      have := wrap32_add (i + 1) 0
      simpa using this)
    have hw : wrap32 (wrap32 (i + 1) + (k : Int)) = wrap32 (i + ((k + 1 : Nat) : Int)) := by
      rw [wrap32_add]
      congr 1
      push_cast
      ring
    simp only [node_lines, List.getElem?_cons_succ, ih, hw]

/-! ## A chain of consecutive addresses -/

theorem headAddr_seq_cells (k : Nat) (a : Nat) :
    headAddr (seq_cells k a) = if k = 0 then NULL else a := by
  cases k <;> simp [seq_cells, headAddr]

theorem seq_cells_chain (n : Nat) : ∀ (k : Nat) (a : Nat), 1 ≤ a → a + k = n + 1 →
    Chain (seq_heap n) (seq_cells k a)
  | 0, _, _, _ => trivial
  | k + 1, a, ha, hk => by
    refine ⟨by show a ≠ 0; omega, ?_, seq_cells_chain n k (a + 1) (by omega) (by omega)⟩
    have hin : 1 ≤ a ∧ a ≤ n := ⟨ha, by omega⟩
    show seq_heap n a = some ⟨0, headAddr (seq_cells k (a + 1))⟩
    rw [headAddr_seq_cells]
    by_cases hk0 : k = 0
    · have han : a = n := by omega
      subst han
      simp [seq_heap, hin, hk0]
    · have han : a ≠ n := by omega
      simp [seq_heap, hin, hk0, han]

theorem seq_cells_isList (n : Nat) (hn : 1 ≤ n) : IsList (seq_heap n) 1 (seq_cells n 1) := by
  refine ⟨?_, seq_cells_chain n n 1 (le_refl 1) (by omega)⟩
  rw [headAddr_seq_cells, if_neg (by omega)]

theorem seq_cells_length : ∀ (k : Nat) (a : Nat), (seq_cells k a).length = k
  | 0, _ => rfl
  | k + 1, a => by simp only [seq_cells, List.length_cons, seq_cells_length k]

theorem seq_cells_getElem_opt : ∀ (k : Nat) (a : Nat) (j : Nat), j < k →
    (seq_cells k a)[j]? = some (a + j, 0)
  | 0, _, _, hj => absurd hj (Nat.not_lt_zero _)
  | k + 1, a, 0, _ => by simp [seq_cells]
  | k + 1, a, j + 1, hj => by
    have ih := seq_cells_getElem_opt k (a + 1) j (by omega)
    simp only [seq_cells, List.getElem?_cons_succ, ih]
    congr 2
    omega

/-- Line `i` of the text written for a chain, the counter starting at 0. -/
theorem node_lines_zero_getElem_opt {cells : List (Ptr × Int)} {i : Nat} {x : Int}
    (hx : (values cells)[i]? = some x) :
    (node_lines 0 cells)[i]? = some (printf_node (wrap32 i) x) := by
  simp only [values, List.getElem?_map, Option.map_eq_some'] at hx
  obtain ⟨c, hc, hcx⟩ := hx
  rw [node_lines_getElem_opt cells 0 i rfl, hc, Option.map_some', hcx, Int.zero_add]

/-- Every node of a chain is live. -/
theorem Chain.live {h : Heap} : ∀ {cells : List (Ptr × Int)}, Chain h cells →
    ∀ a ∈ addrs cells, ∃ nd, h a = some nd
  | [], _, a, ha => by simp [addrs] at ha
  | c :: rest, hc, a, ha => by
    simp only [addrs, List.map_cons, List.mem_cons] at ha
    rcases ha with e | hm
    · exact ⟨_, e ▸ hc.2.1⟩
    · exact Chain.live hc.2.2 a hm

/-- On any well-formed list `delete_at_head` returns the list of the cells after
the first. -/
theorem delete_at_head_spec {h : Heap} {head : Ptr} {cells : List (Ptr × Int)}
    (hl : IsList h head cells) :
    ∃ hd h1, delete_at_head h head = .ok (hd, h1) ∧ IsList h1 hd cells.tail := by
  cases cells with
  | nil =>
    have hh : head = NULL := hl.1
    subst hh
    exact ⟨NULL, h, delete_at_head_null h, rfl, trivial⟩
  | cons c rest => exact ⟨_, _, delete_at_head_cons hl, delete_at_head_isList hl⟩

/-- The three head insertions 7, 5, 3 that open both demos give the chain 3, 5, 7. -/
theorem head_inserts_7_5_3 (h : Heap) (p1 p2 p3 : Ptr)
    (hnn : ∀ a ∈ [p1, p2, p3], a ≠ NULL) (hnd : [p1, p2, p3].Nodup) :
    ∃ hd h1, insert_all_at_head h NULL [(p1, 7), (p2, 5), (p3, 3)] = .ok (hd, h1) ∧
      IsList h1 hd [(p3, 3), (p2, 5), (p1, 7)] :=
  insert_all_at_head_isList [(p1, 7), (p2, 5), (p3, 3)] h NULL [] ⟨rfl, trivial⟩ hnn hnd
    (fun _ _ hm => by simp [addrs] at hm)

/-- Whenever the loop of `print_list` returns, it returns the memory it was
given and the lines computed by `print_list_loop`; it fails exactly when
`print_list_loop` does. -/
theorem print_list_loop_mem_eq : ∀ (fuel : Nat) (h : Heap) (current : Ptr) (i : Int)
    (out : List String), print_list_loop_mem fuel h current i out =
      match print_list_loop fuel h current i out with
      | .ok o => .ok (h, o)
      | .error e => .error e
  | 0, _, _, _, _ => rfl
  | fuel + 1, h, current, i, out => by
    by_cases hc : current ≠ NULL
    · cases hld : load h current with
      | error e => simp only [print_list_loop_mem, print_list_loop, if_pos hc, hld]
      | ok nd =>
        simp only [print_list_loop_mem, print_list_loop, if_pos hc, hld]
        exact print_list_loop_mem_eq fuel h nd.next _ _
    · simp only [print_list_loop_mem, print_list_loop, if_neg hc]

/-- On a well-formed list `print_list` returns the memory it was given and the
lines of the cells. -/
theorem print_list_mem_isList {fuel : Nat} {h : Heap} {head : Ptr} {cells : List (Ptr × Int)}
    (hl : IsList h head cells) (hf : cells.length < fuel) :
    print_list_mem fuel h head = .ok (h, node_lines 0 cells) := by
  have hp : print_list_loop fuel h head 0 [] = .ok (node_lines 0 cells) :=
    print_list_isList hl hf
  rw [print_list_mem, print_list_loop_mem_eq, hp]

/-! ## The claims, continued -/

/-- C11, refuted as stated: on the chain of 2147483649 nodes of value 0 at the
addresses 1, 2, ..., the record written for the node at position 2147483648 is
`Node -2147483648: 0`, the 32-bit counter having wrapped, and not
`Node 2147483648: 0`. -/
theorem print_list_index_wraps :
    IsList (seq_heap 2147483649) 1 (seq_cells 2147483649 1) ∧
    (values (seq_cells 2147483649 1))[2147483648]? = some 0 ∧
    ∃ out, print_list 2147483650 (seq_heap 2147483649) 1 = .ok out ∧
      out[2147483648]? = some "Node -2147483648: 0\n" ∧
      out[2147483648]? ≠ some (printf_node 2147483648 0) := by
  have hl : IsList (seq_heap 2147483649) 1 (seq_cells 2147483649 1) :=
    seq_cells_isList 2147483649 (by omega)
  have hv : (values (seq_cells 2147483649 1))[2147483648]? = some 0 := by
    rw [values, List.getElem?_map, seq_cells_getElem_opt 2147483649 1 2147483648 (by omega)]
    rfl
  have hrun : print_list 2147483650 (seq_heap 2147483649) 1 =
      .ok (node_lines 0 (seq_cells 2147483649 1)) :=
    print_list_isList hl (by rw [seq_cells_length]; omega)
  have hline : (node_lines 0 (seq_cells 2147483649 1))[2147483648]? =
      some "Node -2147483648: 0\n" := by
    rw [node_lines_zero_getElem_opt hv]
    rfl
  refine ⟨hl, hv, _, hrun, hline, ?_⟩
  rw [hline]
  decide

/-- C11, amended: for a well-formed list of `n ≤ 2147483648` nodes with values
`x0, ..., x(n-1)`, `print_list` (given more than `n` iterations) writes exactly
`n` lines, line `i` being `Node i: xi`; for the empty list it writes nothing. -/
theorem print_list_lines (fuel : Nat) (h : Heap) (head : Ptr) (cells : List (Ptr × Int))
    (hl : IsList h head cells) (hf : cells.length < fuel) (hn : cells.length ≤ 2147483648) :
    ∃ out, print_list fuel h head = .ok out ∧ out.length = cells.length ∧
      (∀ (i : Nat) (x : Int), (values cells)[i]? = some x →
        out[i]? = some (printf_node i x)) ∧
      (cells = [] → out = []) := by
  refine ⟨node_lines 0 cells, print_list_isList hl hf, node_lines_length cells 0, ?_, ?_⟩
  · intro i x hx
    have hi : i < cells.length := by
      have := (List.getElem?_eq_some.1 hx).1
      simpa [values] using this
    rw [node_lines_zero_getElem_opt hx, wrap32_of_range (by omega) (by omega)]
  · intro he
    subst he
    rfl

/-- Witness of C11: the hand-built chain 5, 6, 7 of
`creating_and_printing_list.c` gives `Node 0: 5`, `Node 1: 6`, `Node 2: 7`. -/
theorem print_list_lines_witness :
    creating_and_printing_list_main 4 =
      .ok ["Node 0: 5\n", "Node 1: 6\n", "Node 2: 7\n"] ∧
    IsList abc_heap 1 abc_cells ∧
    ∃ out, print_list 4 abc_heap 1 = .ok out ∧ out.length = abc_cells.length ∧
      (∀ (i : Nat) (x : Int), (values abc_cells)[i]? = some x →
        out[i]? = some (printf_node i x)) ∧
      (abc_cells = [] → out = []) :=
  ⟨rfl, by decide, print_list_lines 4 abc_heap 1 abc_cells (by decide) (by decide) (by decide)⟩

/-- C12: traversal never mutates the list. On a well-formed list `print_list`
(given more iterations than the list has nodes) returns, and the memory it
leaves behind is the memory it was given: every node of the list has the value
and the `next` it had, and `head` still heads the same chain. A second call from
the same head on the memory left behind by the first returns as well, leaves the
memory unchanged again and writes the very lines of the first call. -/
theorem print_list_keeps_memory (f1 f2 : Nat) (h : Heap) (head : Ptr)
    (cells : List (Ptr × Int)) (hl : IsList h head cells) (hf1 : cells.length < f1)
    (hf2 : cells.length < f2) :
    ∃ h1 out, print_list_mem f1 h head = .ok (h1, out) ∧ h1 = h ∧
      (∀ a ∈ addrs cells, h1 a = h a) ∧ IsList h1 head cells ∧
      print_list f1 h head = .ok out ∧ out = node_lines 0 cells ∧
      print_list_mem f2 h1 head = .ok (h1, out) ∧
      print_list_twice f1 f2 h head = .ok (h, out, out) := by
  have hm1 := print_list_mem_isList hl hf1
  have hm2 := print_list_mem_isList hl hf2
  refine ⟨h, node_lines 0 cells, hm1, rfl, fun _ _ => rfl, hl, print_list_isList hl hf1, rfl,
    hm2, ?_⟩
  simp only [print_list_twice, hm1, hm2]

/-- Witness of C12: printing the chain 5, 6, 7 twice. -/
theorem print_list_keeps_memory_witness :
    IsList abc_heap 1 abc_cells ∧
    ∃ h1 out, print_list_mem 4 abc_heap 1 = .ok (h1, out) ∧ h1 = abc_heap ∧
      (∀ a ∈ addrs abc_cells, h1 a = abc_heap a) ∧ IsList h1 1 abc_cells ∧
      print_list 4 abc_heap 1 = .ok out ∧ out = node_lines 0 abc_cells ∧
      print_list_mem 9 h1 1 = .ok (h1, out) ∧
      print_list_twice 4 9 abc_heap 1 = .ok (abc_heap, out, out) :=
  ⟨by decide, print_list_keeps_memory 4 9 abc_heap 1 abc_cells (by decide) (by decide)
    (by decide)⟩

/-- C13: on a non-empty well-formed list, with the allocation succeeding at an
address `p` outside the list, `insert_at_tail` returns the very pointer `head`;
the former terminal node `t` gets `next = p` in place of `NULL`, every other
address but `p` holds what it held, and every node of the list keeps its value.
On the empty list it returns the new node `p`. -/
theorem insert_at_tail_keeps_head (fuel : Nat) (h : Heap) (head : Ptr)
    (cells : List (Ptr × Int)) (p : Ptr) (v : Int) (hl : IsList h head cells) (hp : p ≠ NULL)
    (hfresh : p ∉ addrs cells) (hf : cells.length ≤ fuel) :
    (cells = [] → ∃ h1, insert_at_tail fuel h p head v = .ok (p, h1)) ∧
    (cells ≠ [] → ∃ h1 t, insert_at_tail fuel h p head v = .ok (head, h1) ∧
      t ∈ addrs cells ∧ (∃ x, h t = some ⟨x, NULL⟩ ∧ h1 t = some ⟨x, p⟩) ∧
      (∀ q, q ≠ t → q ≠ p → h1 q = h q) ∧
      (∀ a ∈ addrs cells, ∃ nd nd1, h a = some nd ∧ h1 a = some nd1 ∧
        nd1.value = nd.value)) := by
  constructor
  · intro he
    subst he
    have hh : head = NULL := hl.1
    subst hh
    exact ⟨_, insert_at_tail_null fuel h p v hp⟩
  · intro hne
    obtain ⟨pre, t, rfl⟩ := exists_snoc_of_ne_nil hne
    have hf2 : pre.length < fuel := by
      simp only [List.length_append, List.length_singleton] at hf
      omega
    have ht : Chain h [t] := Chain.suffix hl.2
    have hpt : p ≠ t.1 := fun e => hfresh (e ▸ last_mem_addrs pre t)
    have hother : ∀ q, q ≠ t.1 → q ≠ p →
        ((h.set p (some ⟨v, NULL⟩)).set t.1 (some ⟨t.2, p⟩)) q = h q := by
      intro q hqt hqp
      rw [Heap.set_other _ _ _ _ hqt, Heap.set_other _ _ _ _ hqp]
    refine ⟨_, t.1, insert_at_tail_snoc v hl hp hfresh hf2, last_mem_addrs pre t,
      ⟨t.2, ht.2.1, Heap.set_same _ _ _⟩, hother, ?_⟩
    intro a ha
    by_cases hat : a = t.1
    · subst hat
      exact ⟨_, _, ht.2.1, Heap.set_same _ _ _, rfl⟩
    · obtain ⟨nd, hnd⟩ := hl.2.live a ha
      have hap : a ≠ p := fun e => hfresh (e ▸ ha)
      exact ⟨nd, nd, hnd, (hother a hat hap).trans hnd, rfl⟩

/-- Witness of C13: appending 10 to the chain 5, 6, 7, the new node being placed
at address 4. -/
theorem insert_at_tail_keeps_head_witness :
    IsList abc_heap 1 abc_cells ∧ abc_cells ≠ [] ∧
    ∃ h1 t, insert_at_tail 3 abc_heap 4 1 10 = .ok (1, h1) ∧
      t ∈ addrs abc_cells ∧ (∃ x, abc_heap t = some ⟨x, NULL⟩ ∧ h1 t = some ⟨x, 4⟩) ∧
      (∀ q, q ≠ t → q ≠ 4 → h1 q = abc_heap q) ∧
      (∀ a ∈ addrs abc_cells, ∃ nd nd1, abc_heap a = some nd ∧ h1 a = some nd1 ∧
        nd1.value = nd.value) :=
  ⟨by decide, by decide,
    (insert_at_tail_keeps_head 3 abc_heap 1 abc_cells 4 10 (by decide) (by decide)
      (by decide) (by decide)).2 (by decide)⟩

/-- C14: on a one-node list, `delete_at_head` and `delete_at_tail` each release
the node and return the empty list, and so does either of them followed by the
other: all four runs end with the same result. -/
theorem delete_on_singleton (fuel : Nat) (h : Heap) (head : Ptr) (t : Ptr × Int)
    (hl : IsList h head [t]) :
    delete_at_head h head = .ok (NULL, h.set t.1 none) ∧
    delete_at_tail fuel h head = .ok (NULL, h.set t.1 none) ∧
    delete_head_then_tail fuel h head = .ok (NULL, h.set t.1 none) ∧
    delete_tail_then_head fuel h head = .ok (NULL, h.set t.1 none) ∧
    IsList (h.set t.1 none) NULL [] := by
  have h1 : delete_at_head h head = .ok (NULL, h.set t.1 none) := delete_at_head_cons hl
  have h2 := delete_at_tail_single fuel hl
  refine ⟨h1, h2, ?_, ?_, rfl, trivial⟩
  · simp only [delete_head_then_tail, h1, delete_at_tail_null]
  · simp only [delete_tail_then_head, h2, delete_at_head_null]

/-- Witness of C14: the one-node list holding 5 at address 1. -/
theorem delete_on_singleton_witness :
    IsList (emptyHeap.set 1 (some ⟨5, NULL⟩)) 1 [(1, 5)] ∧
    delete_at_head (emptyHeap.set 1 (some ⟨5, NULL⟩)) 1 =
      .ok (NULL, (emptyHeap.set 1 (some ⟨5, NULL⟩)).set 1 none) ∧
    delete_at_tail 0 (emptyHeap.set 1 (some ⟨5, NULL⟩)) 1 =
      .ok (NULL, (emptyHeap.set 1 (some ⟨5, NULL⟩)).set 1 none) ∧
    delete_head_then_tail 0 (emptyHeap.set 1 (some ⟨5, NULL⟩)) 1 =
      .ok (NULL, (emptyHeap.set 1 (some ⟨5, NULL⟩)).set 1 none) ∧
    delete_tail_then_head 0 (emptyHeap.set 1 (some ⟨5, NULL⟩)) 1 =
      .ok (NULL, (emptyHeap.set 1 (some ⟨5, NULL⟩)).set 1 none) ∧
    IsList ((emptyHeap.set 1 (some ⟨5, NULL⟩)).set 1 none) NULL [] :=
  ⟨by decide, delete_on_singleton 0 (emptyHeap.set 1 (some ⟨5, NULL⟩)) 1 (1, 5) (by decide)⟩

/-- C15: `delete_at_head` applied to the empty list returns the empty list and
leaves the memory as it is: no node is written or released. -/
theorem delete_at_head_empty (h : Heap) : delete_at_head h NULL = .ok (NULL, h) :=
  delete_at_head_null h

/-- C16: `delete_at_tail` applied to the empty list returns the empty list and
leaves the memory as it is, whatever the iteration budget: no node is written or
released. -/
theorem delete_at_tail_empty (fuel : Nat) (h : Heap) :
    delete_at_tail fuel h NULL = .ok (NULL, h) :=
  delete_at_tail_null fuel h

/-- C17: the insertion demo. From the empty list, with the six allocations
succeeding at pairwise distinct addresses, the head insertions 7, 5, 3 give the
traversal 3, 5, 7, the tail insertions 10, 12, 14 then give
3, 5, 7, 10, 12, 14, and `main` of `insert_at_list.c` prints `Node 0: 3` through
`Node 5: 14`. -/
theorem insertion_demo (fuel : Nat) (h : Heap) (p1 p2 p3 p4 p5 p6 : Ptr)
    (hnn : ∀ a ∈ [p1, p2, p3, p4, p5, p6], a ≠ NULL) (hnd : [p1, p2, p3, p4, p5, p6].Nodup)
    (hf : 6 < fuel) :
    ∃ hd3 h3 hd6 h6,
      insert_all_at_head h NULL [(p1, 7), (p2, 5), (p3, 3)] = .ok (hd3, h3) ∧
      IsList h3 hd3 [(p3, 3), (p2, 5), (p1, 7)] ∧
      values [(p3, 3), (p2, 5), (p1, 7)] = [3, 5, 7] ∧
      insert_all_at_tail fuel h3 hd3 [(p4, 10), (p5, 12), (p6, 14)] = .ok (hd6, h6) ∧
      IsList h6 hd6 [(p3, 3), (p2, 5), (p1, 7), (p4, 10), (p5, 12), (p6, 14)] ∧
      values [(p3, 3), (p2, 5), (p1, 7), (p4, 10), (p5, 12), (p6, 14)] =
        [3, 5, 7, 10, 12, 14] ∧
      print_list fuel h6 hd6 = .ok ["Node 0: 3\n", "Node 1: 5\n", "Node 2: 7\n",
        "Node 3: 10\n", "Node 4: 12\n", "Node 5: 14\n"] ∧
      insert_at_list_main fuel h p1 p2 p3 p4 p5 p6 = .ok ["Node 0: 3\n", "Node 1: 5\n",
        "Node 2: 7\n", "Node 3: 10\n", "Node 4: 12\n", "Node 5: 14\n"] := by
  have hnd2 : ([p1, p2, p3] ++ [p4, p5, p6]).Nodup := hnd
  obtain ⟨hnd3, hnd6, hdisj⟩ := List.nodup_append.1 hnd2
  have hnn3 : ∀ a ∈ [p1, p2, p3], a ≠ NULL := fun a ha =>
    hnn a (List.mem_append_left [p4, p5, p6] ha)
  have hnn6 : ∀ a ∈ [p4, p5, p6], a ≠ NULL := fun a ha =>
    hnn a (List.mem_append_right [p1, p2, p3] ha)
  obtain ⟨hd3, h3, hrunA, hl3⟩ := head_inserts_7_5_3 h p1 p2 p3 hnn3 hnd3
  obtain ⟨hd6, h6, hrunB, hl6⟩ := insert_all_at_tail_isList fuel
    [(p4, 10), (p5, 12), (p6, 14)] h3 hd3 [(p3, 3), (p2, 5), (p1, 7)] hl3 hnn6 hnd6
    (fun a ha hm => hdisj (show a ∈ [p1, p2, p3] by
      simp only [addrs, List.map_cons, List.map_nil, List.mem_cons, List.mem_singleton,
        List.not_mem_nil, or_false] at hm ⊢
      tauto) ha)
    (Nat.le_of_lt hf)
  have hP : print_list fuel h6 hd6 = .ok ["Node 0: 3\n", "Node 1: 5\n", "Node 2: 7\n",
      "Node 3: 10\n", "Node 4: 12\n", "Node 5: 14\n"] :=
    print_list_isList hl6 hf
  refine ⟨hd3, h3, hd6, h6, hrunA, hl3, rfl, hrunB, hl6, rfl, hP, ?_⟩
  simp only [insert_at_list_main, hrunA, hrunB, hP]

/-- Witness of C17: the demo run on the empty memory, the six nodes being placed
at the addresses 1 to 6. -/
theorem insertion_demo_witness :
    ∃ hd3 h3 hd6 h6,
      insert_all_at_head emptyHeap NULL [(1, 7), (2, 5), (3, 3)] = .ok (hd3, h3) ∧
      IsList h3 hd3 [(3, 3), (2, 5), (1, 7)] ∧
      values [(3, 3), (2, 5), (1, 7)] = [3, 5, 7] ∧
      insert_all_at_tail 7 h3 hd3 [(4, 10), (5, 12), (6, 14)] = .ok (hd6, h6) ∧
      IsList h6 hd6 [(3, 3), (2, 5), (1, 7), (4, 10), (5, 12), (6, 14)] ∧
      values [(3, 3), (2, 5), (1, 7), (4, 10), (5, 12), (6, 14)] = [3, 5, 7, 10, 12, 14] ∧
      print_list 7 h6 hd6 = .ok ["Node 0: 3\n", "Node 1: 5\n", "Node 2: 7\n",
        "Node 3: 10\n", "Node 4: 12\n", "Node 5: 14\n"] ∧
      insert_at_list_main 7 emptyHeap 1 2 3 4 5 6 = .ok ["Node 0: 3\n", "Node 1: 5\n",
        "Node 2: 7\n", "Node 3: 10\n", "Node 4: 12\n", "Node 5: 14\n"] :=
  insertion_demo 7 emptyHeap 1 2 3 4 5 6 (by decide) (by decide) (by decide)

/-- C18: the deletion demo. From the empty list, with the three allocations
succeeding at pairwise distinct addresses, the head insertions 7, 5, 3 give the
traversal 3, 5, 7; `delete_at_head` then gives 5, 7 and `delete_at_tail` then
gives 5, as `main` of `delete_at_tail.c` prints them. -/
theorem deletion_demo (fuel : Nat) (h : Heap) (p1 p2 p3 : Ptr)
    (hnn : ∀ a ∈ [p1, p2, p3], a ≠ NULL) (hnd : [p1, p2, p3].Nodup) (hf : 3 < fuel) :
    ∃ hd3 h3 hd2 h2 hd1 h1,
      insert_all_at_head h NULL [(p1, 7), (p2, 5), (p3, 3)] = .ok (hd3, h3) ∧
      IsList h3 hd3 [(p3, 3), (p2, 5), (p1, 7)] ∧
      values [(p3, 3), (p2, 5), (p1, 7)] = [3, 5, 7] ∧
      delete_at_head h3 hd3 = .ok (hd2, h2) ∧ IsList h2 hd2 [(p2, 5), (p1, 7)] ∧
      values [(p2, 5), (p1, 7)] = [5, 7] ∧
      delete_at_tail fuel h2 hd2 = .ok (hd1, h1) ∧ IsList h1 hd1 [(p2, 5)] ∧
      values [(p2, 5)] = [5] ∧
      delete_at_tail_main fuel h p1 p2 p3 = .ok ["Before Delete:\n", "Node 0: 3\n",
        "Node 1: 5\n", "Node 2: 7\n", "\nAfter Deleting head:\n", "Node 0: 5\n",
        "Node 1: 7\n", "\nAfter Deleting tail:\n", "Node 0: 5\n"] := by
  obtain ⟨hd3, h3, hrunA, hl3⟩ := head_inserts_7_5_3 h p1 p2 p3 hnn hnd
  have hrunB : delete_at_head h3 hd3 = .ok (p2, h3.set p3 none) := delete_at_head_cons hl3
  have hl2 : IsList (h3.set p3 none) p2 [(p2, 5), (p1, 7)] := delete_at_head_isList hl3
  obtain ⟨hd1, h1, hrunC, hl1⟩ := delete_at_tail_spec fuel hl2
    (show 2 ≤ fuel from Nat.le_of_lt (Nat.lt_of_succ_lt hf))
  have hl1b : IsList h1 hd1 [(p2, 5)] := hl1
  have hP3 : print_list fuel h3 hd3 = .ok ["Node 0: 3\n", "Node 1: 5\n", "Node 2: 7\n"] :=
    print_list_isList hl3 hf
  have hP2 : print_list fuel (h3.set p3 none) p2 = .ok ["Node 0: 5\n", "Node 1: 7\n"] :=
    print_list_isList hl2 (show 2 < fuel from Nat.lt_of_succ_lt hf)
  have hP1 : print_list fuel h1 hd1 = .ok ["Node 0: 5\n"] :=
    print_list_isList hl1b (show 1 < fuel from Nat.lt_of_succ_lt (Nat.lt_of_succ_lt hf))
  refine ⟨hd3, h3, p2, _, hd1, h1, hrunA, hl3, rfl, hrunB, hl2, rfl, hrunC, hl1b, rfl, ?_⟩
  simp only [delete_at_tail_main, hrunA, hP3, hrunB, hP2, hrunC, hP1]
  rfl

/-- Witness of C18: the demo run on the empty memory, the three nodes being
placed at the addresses 1, 2, 3. -/
theorem deletion_demo_witness :
    ∃ hd3 h3 hd2 h2 hd1 h1,
      insert_all_at_head emptyHeap NULL [(1, 7), (2, 5), (3, 3)] = .ok (hd3, h3) ∧
      IsList h3 hd3 [(3, 3), (2, 5), (1, 7)] ∧
      values [(3, 3), (2, 5), (1, 7)] = [3, 5, 7] ∧
      delete_at_head h3 hd3 = .ok (hd2, h2) ∧ IsList h2 hd2 [(2, 5), (1, 7)] ∧
      values [(2, 5), (1, 7)] = [5, 7] ∧
      delete_at_tail 4 h2 hd2 = .ok (hd1, h1) ∧ IsList h1 hd1 [(2, 5)] ∧
      values [(2, 5)] = [5] ∧
      delete_at_tail_main 4 emptyHeap 1 2 3 = .ok ["Before Delete:\n", "Node 0: 3\n",
        "Node 1: 5\n", "Node 2: 7\n", "\nAfter Deleting head:\n", "Node 0: 5\n",
        "Node 1: 7\n", "\nAfter Deleting tail:\n", "Node 0: 5\n"] :=
  deletion_demo 4 emptyHeap 1 2 3 (by decide) (by decide) (by decide)

/-- C19: on every well-formed list, of any length, `delete_at_tail` followed by
`delete_at_head` and `delete_at_head` followed by `delete_at_tail` both return
(with enough iterations for the search loop), and the two resulting lists have
the same value sequence: the original one without its first and last elements. -/
theorem delete_head_tail_commute (fuel : Nat) (h : Heap) (head : Ptr)
    (cells : List (Ptr × Int)) (hl : IsList h head cells) (hf : cells.length ≤ fuel) :
    ∃ hd1 h1 hd2 h2, delete_tail_then_head fuel h head = .ok (hd1, h1) ∧
      delete_head_then_tail fuel h head = .ok (hd2, h2) ∧
      IsList h1 hd1 cells.dropLast.tail ∧ IsList h2 hd2 cells.tail.dropLast ∧
      values cells.dropLast.tail = values cells.tail.dropLast ∧
      values cells.tail.dropLast = (values cells).tail.dropLast := by
  obtain ⟨hdA, hA, hrunA, hlA⟩ := delete_at_tail_spec fuel hl hf
  obtain ⟨hd1, h1, hrun1, hl1⟩ := delete_at_head_spec hlA
  obtain ⟨hdB, hB, hrunB, hlB⟩ := delete_at_head_spec hl
  obtain ⟨hd2, h2, hrun2, hl2⟩ := delete_at_tail_spec fuel hlB
    (by simp only [List.length_tail]; omega)
  refine ⟨hd1, h1, hd2, h2, ?_, ?_, hl1, hl2, by rw [List.tail_dropLast], by simp [values]⟩
  · simp only [delete_tail_then_head, hrunA, hrun1]
  · simp only [delete_head_then_tail, hrunB, hrun2]

/-- Witness of C19: both orders on the chain 5, 6, 7 leave the list holding 6. -/
theorem delete_head_tail_commute_witness :
    IsList abc_heap 1 abc_cells ∧
    ∃ hd1 h1 hd2 h2, delete_tail_then_head 3 abc_heap 1 = .ok (hd1, h1) ∧
      delete_head_then_tail 3 abc_heap 1 = .ok (hd2, h2) ∧
      IsList h1 hd1 abc_cells.dropLast.tail ∧ IsList h2 hd2 abc_cells.tail.dropLast ∧
      values abc_cells.dropLast.tail = values abc_cells.tail.dropLast ∧
      values abc_cells.tail.dropLast = (values abc_cells).tail.dropLast :=
  ⟨by decide, delete_head_tail_commute 3 abc_heap 1 abc_cells (by decide) (by decide)⟩

/-- C20: head round trip. For a well-formed list `head` and an integer `v`, with
the allocation succeeding at an address `p` outside the list, `delete_at_head`
applied to the result of `insert_at_head` returns the original pointer `head`;
every address but `p` holds what it held, `p` holds no node again, the chain from
`head` is the original one, and when `p` held no node before the call the whole
memory is the one before the insertion. -/
theorem delete_at_head_insert_at_head (h : Heap) (head : Ptr) (cells : List (Ptr × Int))
    (p : Ptr) (v : Int) (hl : IsList h head cells) (hp : p ≠ NULL)
    (hfresh : p ∉ addrs cells) :
    ∃ h1 h2, insert_at_head h p head v = .ok (p, h1) ∧
      delete_at_head h1 p = .ok (head, h2) ∧ (∀ q, q ≠ p → h2 q = h q) ∧ h2 p = none ∧
      (∀ a ∈ addrs cells, h2 a = h a) ∧ IsList h2 head cells ∧ (h p = none → h2 = h) := by
  have hl1 := (insert_at_head_isList v hl hp hfresh).2
  have hdel : delete_at_head (h.set p (some ⟨v, head⟩)) p =
      .ok (head, h.set p none) := by
    rw [delete_at_head_cons hl1, Heap.set_set, ← hl.1]
  have hkeep : ∀ a ∈ addrs cells, (h.set p none) a = h a :=
    fun a ha => Heap.set_other _ _ _ _ (fun e => hfresh (e ▸ ha))
  refine ⟨_, _, insert_at_head_eq h p head v hp, hdel,
    fun q hq => Heap.set_other _ _ _ _ hq, Heap.set_same _ _ _, hkeep,
    ⟨hl.1, hl.2.frame hkeep⟩, ?_⟩
  intro hnone
  funext q
  by_cases hq : q = p
  · rw [hq, Heap.set_same, hnone]
  · exact Heap.set_other _ _ _ _ hq

/-- Witness of C20: inserting 3 at the head of the chain 5, 6, 7 at address 4 and
deleting the head again. -/
theorem delete_at_head_insert_at_head_witness :
    IsList abc_heap 1 abc_cells ∧ abc_heap 4 = none ∧
    ∃ h1 h2, insert_at_head abc_heap 4 1 3 = .ok (4, h1) ∧
      delete_at_head h1 4 = .ok (1, h2) ∧ (∀ q, q ≠ 4 → h2 q = abc_heap q) ∧ h2 4 = none ∧
      (∀ a ∈ addrs abc_cells, h2 a = abc_heap a) ∧ IsList h2 1 abc_cells ∧
      (abc_heap 4 = none → h2 = abc_heap) :=
  ⟨by decide, by decide,
    delete_at_head_insert_at_head abc_heap 1 abc_cells 4 3 (by decide) (by decide)
      (by decide)⟩

end DSinC
